import Mathlib

/-!
# Verification of the cypy graph data storage layer

A shallow embedding of the core data layer of the `cypy` repository
(`cypy/data/store.py`, `cypy/data/values.py`, and the near-duplicate
generation in `cypy/graph/store.py`), together with proofs about it.

Conventions used throughout:

* Python `dict`s become association lists `List (κ × β)`; lookup finds the
  first binding, insertion overwrites in place or appends, deletion removes
  the binding.  The mutation operations of the store only ever insert fresh
  keys, so the lists stay duplicate-free.
* Python `set`s become `Finset`s.
* Node and relationship keys (`uuid4()` values) become natural numbers drawn
  from per-store counters; the freshness that `uuid4` supplies in the source
  is captured by the counter bound in the store validity predicate.
* Endpoint roles are integers: the last endpoint gets the sentinel `-1`, all
  others their literal index (`enumerate_nodes` in the source).
* Fallible Python code (raising `KeyError` / `TypeError` / `ValueError`)
  returns `Except`/`Option` values.
* The embedded value universe (`PyValue`) covers one nesting level of lists
  and maps over atoms, which is the fragment every claim exercises; the
  stores are embedded over property values that the restrictive
  `PropertyValue` policy accepts, matching invariant 5 of the specification.
-/

/-! ## Association-list dictionaries (Python `dict` semantics) -/

/-- `d[k]`, returning `none` when the key is absent (first binding wins). -/
def dlookup {κ β : Type} [DecidableEq κ] : List (κ × β) → κ → Option β
  | [], _ => none
  | p :: t, k => if p.1 = k then some p.2 else dlookup t k

/-- `d[k] = v`: overwrite an existing binding in place, else append. -/
def dinsert {κ β : Type} [DecidableEq κ] : List (κ × β) → κ → β → List (κ × β)
  | [], k, v => [(k, v)]
  | p :: t, k, v => if p.1 = k then (k, v) :: t else p :: dinsert t k v

/-- `del d[k]` (no-op when the key is absent). -/
def derase {κ β : Type} [DecidableEq κ] : List (κ × β) → κ → List (κ × β)
  | [], _ => []
  | p :: t, k => if p.1 = k then derase t k else p :: derase t k

/-- `d.keys()`. -/
def dkeys {κ β : Type} (l : List (κ × β)) : List κ := l.map Prod.fst

/-- `d.setdefault(k, set()).add(a)` — the index-extension idiom of the store. -/
def dsetAdd {κ α : Type} [DecidableEq κ] [DecidableEq α]
    (l : List (κ × Finset α)) (k : κ) (a : α) : List (κ × Finset α) :=
  dinsert l k (insert a ((dlookup l k).getD ∅))

/-- `d.setdefault(k, set()).update(s)` — the index-merge idiom of `update`. -/
def dsetUnion {κ α : Type} [DecidableEq κ] [DecidableEq α]
    (l : List (κ × Finset α)) (k : κ) (s : Finset α) : List (κ × Finset α) :=
  dinsert l k (((dlookup l k).getD ∅) ∪ s)

/-- `discard_value(collection, key, value)` from `store.py`: discard `a` from
the value set at `k` and drop the whole entry if the set becomes empty. -/
def ddiscardDrop {κ α : Type} [DecidableEq κ] [DecidableEq α]
    (l : List (κ × Finset α)) (k : κ) (a : α) : List (κ × Finset α) :=
  match dlookup l k with
  | none => l
  | some b => if b.erase a = ∅ then derase l k else dinsert l k (b.erase a)

/-- The `remove_labels` callback idiom of `MutableGraphStore.node_entry`:
`self._nodes_by_label[label].discard(key)` guarded by `try/except KeyError`.
Unlike `discard_value` it never drops an emptied entry. -/
def ddiscardKeep {κ α : Type} [DecidableEq κ] [DecidableEq α]
    (l : List (κ × Finset α)) (k : κ) (a : α) : List (κ × Finset α) :=
  match dlookup l k with
  | none => l
  | some b => dinsert l k (b.erase a)

/-! ## Values and records (`cypy/data/values.py`) -/

/-- Primitive (non-container) Python values handled by the coercion system.
`float` and `bytes` are omitted: no claim exercises them and floats are not
representable in the embedding. -/
inductive PyAtom where
  | bool (b : Bool)
  | int (i : Int)
  | str (s : String)
deriving DecidableEq, Repr

/-- The embedded Python value universe: atoms plus one nesting level of
lists and string-keyed maps, the fragment the repository's own tests and the
claims use. -/
inductive PyValue where
  | none
  | atom (a : PyAtom)
  | list (xs : List PyAtom)
  | map (kvs : List (String × PyAtom))
deriving DecidableEq, Repr

/-- The Python exception kinds raised by the data layer. -/
inductive PyErr where
  | typeError
  | valueError
  | keyError
deriving DecidableEq, Repr

/-- The two coercion policies: the general `Value` class and the restrictive
`PropertyValue` class. -/
inductive VClass where
  | value
  | propertyValue
deriving DecidableEq

/-- `cls.nullable`: `Value.nullable = True`, `PropertyValue.nullable = False`. -/
def VClass.nullable : VClass → Bool
  | .value => true
  | .propertyValue => false

/-- Python `type(item)` discrimination used by the homogeneity check of
`PropertyValue.coerce_list`. -/
def PyAtom.tag : PyAtom → Nat
  | .bool _ => 0
  | .int _ => 1
  | .str _ => 2

/-- Coercion of an atom: booleans and strings pass through, integers must
satisfy `-2**63 <= value < 2**63` (`Value.coerce_integer`). -/
def coerceAtom (a : PyAtom) : Except PyErr PyAtom :=
  match a with
  | .int i => if -2 ^ 63 ≤ i ∧ i < 2 ^ 63 then .ok (.int i) else .error .valueError
  | .bool b => .ok (.bool b)
  | .str s => .ok (.str s)

/-- `PropertyValue.coerce_list`: coerce each item, require it primitive
(atoms always are in this universe) and homogeneous with the first item's
type, else `ValueError`.  The accumulator tracks `item_type`. -/
def coercePVListAux : List PyAtom → Option Nat → Except PyErr (List PyAtom)
  | [], _ => .ok []
  | x :: t, ty => do
    let y ← coerceAtom x
    match ty with
    | none =>
      let rest ← coercePVListAux t (some y.tag)
      .ok (y :: rest)
    | some t0 =>
      if y.tag = t0 then
        let rest ← coercePVListAux t (some t0)
        .ok (y :: rest)
      else
        .error .valueError

/-- `cls.coerce(value)` for both policies (`Value.coerce` dispatch):
null is accepted only when nullable (`coerce_null`), atoms via `coerceAtom`,
lists element-wise (with the `PropertyValue` homogeneity rule), maps
value-wise for `Value` and rejected with `TypeError` for `PropertyValue`. -/
def coerceVal (c : VClass) : PyValue → Except PyErr PyValue
  | .none => if c.nullable then .ok .none else .error .valueError
  | .atom a => (coerceAtom a).map .atom
  | .list xs =>
    match c with
    | .value => (xs.mapM coerceAtom).map .list
    | .propertyValue => (coercePVListAux xs none).map .list
  | .map kvs =>
    match c with
    | .value => (kvs.mapM (fun p => (coerceAtom p.2).map (fun a => (p.1, a)))).map .map
    | .propertyValue => .error .typeError

/-- A `Record`, keys zipped with their (already coerced) values.  The source
keeps two parallel tuples `self.__keys` / `tuple(self)`; `items()` zips them
back into exactly this list. -/
abbrev RecordData := List (String × PyValue)

/-- `Record.__new__`: coerce every value with the class policy. -/
def recordNew (c : VClass) : List (String × PyValue) → Except PyErr RecordData
  | [] => .ok []
  | (k, v) :: t => do
    let v2 ← coerceVal c v
    let t2 ← recordNew c t
    .ok ((k, v2) :: t2)

/-- `Record.__getitem__` for a string key: `self.__keys.index(key)` finds the
first occurrence and returns the value at that position; on `ValueError`
(absent key) a nullable class raises `KeyError` while a non-nullable class
returns `None`. -/
def recordGetItemStr (c : VClass) (r : RecordData) (k : String) : Except PyErr PyValue :=
  match dlookup r k with
  | some v => .ok v
  | none => if c.nullable then .error .keyError else .ok .none

/-- Code-point comparison of characters (Python string ordering). -/
def charLeB (a b : Char) : Bool := decide (a.toNat ≤ b.toNat)

/-- Lexicographic code-point comparison of character lists. -/
def chListLeB : List Char → List Char → Bool
  | [], _ => true
  | _ :: _, [] => false
  | a :: as, b :: bs => if a.toNat = b.toNat then chListLeB as bs else charLeB a b

/-- Python `<=` on strings (lexicographic over code points). -/
def strLeB (a b : String) : Bool := chListLeB a.data b.data

/-- Python `sorted` on key/value pairs, ordering by key (a stable sort;
ties between equal keys are broken by value order in Python, which no claim
observes). -/
def pySorted (items : List (String × PyValue)) : List (String × PyValue) :=
  items.insertionSort (fun p q => strLeB p.1 q.1 = true)

/-- `PropertyRecord.__new__`: drop pairs with a null value, sort, then build
the record under the `PropertyValue` policy. -/
def propertyRecordNew (items : List (String × PyValue)) : Except PyErr RecordData :=
  recordNew .propertyValue (pySorted (items.filter (fun p => ¬ p.2 = PyValue.none)))

/-- `PropertyRecord.__hash__`: `reduce(xor_operator, map(hash, self.items()))`.
`reduce` without an initial value raises `TypeError` on an empty sequence,
modelled as `none`.  `h` stands for Python's per-item `hash`. -/
def prHash (h : String × PyValue → Nat) (r : RecordData) : Option Nat :=
  match r with
  | [] => none
  | x :: t => some (t.foldl (fun a i => a ^^^ h i) (h x))

/-! ## ReactiveSet (`cypy/data/store.py`, lines 36–107) -/

/-- Result of one `ReactiveSet` mutation: the post state plus the element
sets handed to the `on_add` and `on_remove` callbacks. -/
structure RSDelta (α : Type) [DecidableEq α] where
  post : Finset α
  added : Finset α
  removed : Finset α

variable {α : Type} [DecidableEq α]

/-- `__ior__`: computes `other - self`, updates, fires `on_add`. -/
def rsIor (s other : Finset α) : RSDelta α := ⟨s ∪ other, other \ s, ∅⟩

/-- `__iand__`: computes `self ^ other` (symmetric difference!), updates,
fires `on_remove` with that set. -/
def rsIand (s other : Finset α) : RSDelta α :=
  ⟨s ∩ other, ∅, (s \ other) ∪ (other \ s)⟩

/-- `__isub__`: computes `self & other`, updates, fires `on_remove`. -/
def rsIsub (s other : Finset α) : RSDelta α := ⟨s \ other, ∅, s ∩ other⟩

/-- `__ixor__`: fires `on_add` with `other - self` and `on_remove` with
`self & other`. -/
def rsIxor (s other : Finset α) : RSDelta α :=
  ⟨(s \ other) ∪ (other \ s), other \ s, s ∩ other⟩

/-- `add`: only fires `on_add` when the element was absent. -/
def rsAdd (s : Finset α) (e : α) : RSDelta α :=
  if e ∈ s then ⟨s, ∅, ∅⟩ else ⟨insert e s, {e}, ∅⟩

/-- `remove`: `set.remove` raises `KeyError` on an absent element (modelled
as `none`), otherwise fires `on_remove`. -/
def rsRemoveEl (s : Finset α) (e : α) : Option (RSDelta α) :=
  if e ∈ s then some ⟨s.erase e, ∅, {e}⟩ else none

/-- `discard`: only fires `on_remove` when the element was present. -/
def rsDiscard (s : Finset α) (e : α) : RSDelta α :=
  if e ∈ s then ⟨s.erase e, ∅, {e}⟩ else ⟨s, ∅, ∅⟩

/-- `pop`: removes an arbitrary element and fires `on_remove` with it; the
element popped is supplied as a parameter (meaningful when it is a member). -/
def rsPop (s : Finset α) (e : α) : RSDelta α := ⟨s.erase e, ∅, {e}⟩

/-- `clear`: fires `on_remove` with a copy of the whole previous state. -/
def rsClear (s : Finset α) : RSDelta α := ⟨∅, ∅, s⟩

/-- The callback-exactness property: `on_add` receives exactly the elements
that entered and `on_remove` exactly those that left. -/
def RSExact (s : Finset α) (d : RSDelta α) : Prop :=
  d.added = d.post \ s ∧ d.removed = s \ d.post

/-- Callback behaviour of every mutating `ReactiveSet` operation on state
`s`: every operation is exact except `__iand__`, whose `on_remove` argument
is the symmetric difference `s ^ other` — the departed elements together
with the elements of `other` that were never members. -/
def RSCallbacksSpec (s other : Finset α) (e p : α) : Prop :=
  RSExact s (rsIor s other) ∧
  ((rsIand s other).post = s ∩ other ∧ (rsIand s other).added = ∅ ∧
    (rsIand s other).removed = (s \ (rsIand s other).post) ∪ (other \ s)) ∧
  RSExact s (rsIsub s other) ∧
  RSExact s (rsIxor s other) ∧
  RSExact s (rsAdd s e) ∧
  (rsRemoveEl s e).elim True (fun d => RSExact s d) ∧
  RSExact s (rsDiscard s e) ∧
  RSExact s (rsPop s p) ∧
  RSExact s (rsClear s)

/-! ## Graph stores (`cypy/data/store.py`, `cypy/graph/store.py`) -/

/-- `NodeEntry = namedtuple("NodeEntry", ["labels", "properties"])`. -/
structure NodeEntry where
  labels : Finset String
  properties : List (String × PyValue)
deriving DecidableEq

/-- `RelationshipEntry = namedtuple("RelationshipEntry", ["type", "nodes",
"properties"])` (`type` is called `rtype` here). -/
structure RelationshipEntry where
  rtype : String
  nodes : List Nat
  properties : List (String × PyValue)
deriving DecidableEq

/-- `enumerate_nodes`: yield each item with its endpoint role — the literal
index, except the last item which gets the sentinel `-1`. -/
def enumerateNodes {γ : Type} (l : List γ) : List (Int × γ) :=
  l.enum.map (fun p => (if (p.1 : Int) = (l.length : Int) - 1 then -1 else (p.1 : Int), p.2))

/-- The five stores of `GraphStore`: two primary maps and three derived
indices. -/
structure GraphStore where
  nodes : List (Nat × NodeEntry)
  relationships : List (Nat × RelationshipEntry)
  nodes_by_label : List (String × Finset Nat)
  relationships_by_type : List (String × Finset Nat)
  relationships_by_node : List (Nat × Finset (Nat × Int))
deriving DecidableEq

/-- `GraphStore._build_nodes_by_label`: full re-scan of the node map. -/
def buildNodesByLabel (ns : List (Nat × NodeEntry)) : List (String × Finset Nat) :=
  ns.foldl (fun d p => (p.2.labels.sort (· ≤ ·)).foldl (fun d2 lb => dsetAdd d2 lb p.1) d) []

/-- `GraphStore._build_relationships_by_type`: full re-scan. -/
def buildRelationshipsByType (rs : List (Nat × RelationshipEntry)) :
    List (String × Finset Nat) :=
  rs.foldl (fun d p => dsetAdd d p.2.rtype p.1) []

/-- `GraphStore._build_relationships_by_node`: full re-scan with roles. -/
def buildRelationshipsByNode (rs : List (Nat × RelationshipEntry)) :
    List (Nat × Finset (Nat × Int)) :=
  rs.foldl (fun d p => (enumerateNodes p.2.nodes).foldl
    (fun d2 q => dsetAdd d2 q.2 (p.1, q.1)) d) []

/-- `GraphStore.__init__(nodes, relationships)` with no indices supplied:
store the primaries and build all three indices by re-scan. -/
def mkGraphStore (ns : List (Nat × NodeEntry)) (rs : List (Nat × RelationshipEntry)) :
    GraphStore :=
  ⟨ns, rs, buildNodesByLabel ns, buildRelationshipsByType rs, buildRelationshipsByNode rs⟩

/-- `node_count()` with no label arguments: `len(self._nodes)`. -/
def GraphStore.node_count (s : GraphStore) : Nat := s.nodes.length

/-- `relationship_count()` with no type argument: `len(self._relationships)`. -/
def GraphStore.relationship_count (s : GraphStore) : Nat := s.relationships.length

/-- `node_labels()` with no key: `frozenset(self._nodes_by_label.keys())`. -/
def GraphStore.node_labels_all (s : GraphStore) : Finset String :=
  (dkeys s.nodes_by_label).toFinset

/-- `relationship_types()`: `frozenset(self._relationships_by_type.keys())`. -/
def GraphStore.relationship_types (s : GraphStore) : Finset String :=
  (dkeys s.relationships_by_type).toFinset

/-- `node_labels(key)`: the node's label set, or the `None` sentinel. -/
def GraphStore.node_labels (s : GraphStore) (n : Nat) : Option (Finset String) :=
  (dlookup s.nodes n).map NodeEntry.labels

/-- `node_properties(key)`: the node's properties, or the `None` sentinel. -/
def GraphStore.node_properties (s : GraphStore) (n : Nat) :
    Option (List (String × PyValue)) :=
  (dlookup s.nodes n).map NodeEntry.properties

/-- `relationship_type(key)`, with the `None` sentinel for unknown keys. -/
def GraphStore.relationship_type (s : GraphStore) (r : Nat) : Option String :=
  (dlookup s.relationships r).map RelationshipEntry.rtype

/-- `relationship_nodes(key)`, with the `None` sentinel for unknown keys. -/
def GraphStore.relationship_nodes (s : GraphStore) (r : Nat) : Option (List Nat) :=
  (dlookup s.relationships r).map RelationshipEntry.nodes

/-- `relationship_properties(key)`, with the `None` sentinel. -/
def GraphStore.relationship_properties (s : GraphStore) (r : Nat) :
    Option (List (String × PyValue)) :=
  (dlookup s.relationships r).map RelationshipEntry.properties

/-- `relationships(r_type, n_keys)` for the positional-sequence form of
`n_keys`: one candidate set per active filter (the type bucket, then for
each non-null position the relationship ids holding that node in exactly
that role); an all-null or empty sequence adds no filters; the result is
the intersection of the candidate sets, or every relationship id when no
filter was supplied. -/
def GraphStore.relationshipsSeq (s : GraphStore) (rType : Option String)
    (nKeys : List (Option Nat)) : Finset Nat :=
  let rsets0 : List (Finset Nat) :=
    match rType with
    | none => []
    | some t => [(dlookup s.relationships_by_type t).getD ∅]
  let rsets : List (Finset Nat) :=
    if nKeys.isEmpty || nKeys.all (fun k => k.isNone) then rsets0
    else rsets0 ++ (enumerateNodes nKeys).filterMap (fun q =>
      match q.2 with
      | none => none
      | some nk => some ((((dlookup s.relationships_by_node nk).getD ∅).filter
          (fun p => p.2 = q.1)).image Prod.fst))
  match rsets with
  | [] => (dkeys s.relationships).toFinset
  | h :: t => t.foldl (fun a b => a ∩ b) h

/-- The concrete Python classes involved in store equality. -/
inductive StoreClass where
  | base
  | frozen
  | mutable
deriving DecidableEq

/-- `isinstance(obj, cls)` over the store class hierarchy: `FrozenGraphStore`
and `MutableGraphStore` are both subclasses of `GraphStore` and unrelated to
each other. -/
def pyIsInstance : StoreClass → StoreClass → Bool
  | _, .base => true
  | .frozen, .frozen => true
  | .mutable, .mutable => true
  | _, _ => false

/-- Python `dict` equality: the two key-to-value mappings coincide. -/
def dictEqB {κ β : Type} [DecidableEq κ] [DecidableEq β]
    (l1 l2 : List (κ × β)) : Bool :=
  (dkeys l1 ++ dkeys l2).all (fun k => decide (dlookup l1 k = dlookup l2 k))

/-- `GraphStore.__eq__`: `isinstance(other, self.__class__)` gate, then
structural comparison of the two primary maps. -/
def storeEq (selfClass otherClass : StoreClass) (self other : GraphStore) : Bool :=
  if pyIsInstance otherClass selfClass then
    dictEqB self.nodes other.nodes && dictEqB self.relationships other.relationships
  else
    false

/-- `GraphStore.__hash__` (`cypy/graph/store.py`): XOR of the hashes of all
node keys and relationship keys, starting from 0.  `h` stands for Python's
`hash` on keys. -/
def storeHash (h : Nat → Nat) (s : GraphStore) : Nat :=
  s.relationships.foldl (fun v p => v ^^^ h p.1)
    (s.nodes.foldl (fun v p => v ^^^ h p.1) 0)

/-- `FrozenGraphStore.node_entry`: `frozenset(labels)` (the identity on the
`Finset` model) and `PropertyRecord(properties)` (key-sorted; the stored
values are already property-coerced, so re-coercion is the identity). -/
def freezeNodeEntry (e : NodeEntry) : NodeEntry :=
  ⟨e.labels, pySorted e.properties⟩

/-- `FrozenGraphStore.relationship_entry`: type and endpoint tuple copied,
properties converted to a `PropertyRecord`. -/
def freezeRelationshipEntry (e : RelationshipEntry) : RelationshipEntry :=
  ⟨e.rtype, e.nodes, pySorted e.properties⟩

/-- The mutable store: the five stores of `GraphStore` plus the two key
generators (`new_node_key` / `new_relationship_key` model `uuid4()` as
counters). -/
structure MutableGraphStore where
  nodes : List (Nat × NodeEntry)
  relationships : List (Nat × RelationshipEntry)
  nodes_by_label : List (String × Finset Nat)
  relationships_by_type : List (String × Finset Nat)
  relationships_by_node : List (Nat × Finset (Nat × Int))
  next_node_key : Nat
  next_relationship_key : Nat
deriving DecidableEq

/-- The `GraphStore` view of a mutable store (the five stores). -/
def MutableGraphStore.toStore (m : MutableGraphStore) : GraphStore :=
  ⟨m.nodes, m.relationships, m.nodes_by_label, m.relationships_by_type,
    m.relationships_by_node⟩

/-- An empty `MutableGraphStore()`. -/
def emptyMGS : MutableGraphStore := ⟨[], [], [], [], [], 0, 0⟩

/-- `FrozenGraphStore.__init__(graph_store)` for a (mutable) source store:
start empty, copy every node entry through `node_entry`, every relationship
entry through `relationship_entry`, and every index bucket through
`frozenset` (the identity on the `Finset` model). -/
def freeze (m : MutableGraphStore) : GraphStore :=
  ⟨m.nodes.map (fun p => (p.1, freezeNodeEntry p.2)),
    m.relationships.map (fun p => (p.1, freezeRelationshipEntry p.2)),
    m.nodes_by_label, m.relationships_by_type, m.relationships_by_node⟩

/-! ### Mutation operations of `MutableGraphStore` -/

/-- Loop state of `add_nodes`: the store (whose label index mutates through
the `ReactiveSet` `on_add` callbacks fired by `node_entry`), the local
`nodes` dict, the local `nodes_by_label` dict, and the generated keys. -/
structure AddNodesState where
  m : MutableGraphStore
  acc : List (Nat × NodeEntry)
  localLabels : List (String × Finset Nat)
  keys : List Nat

/-- One iteration of the `add_nodes` loop: generate a key, build the entry
(creating the `ReactiveSet` fires `on_add` with the initial labels, which
inserts the key into the store's label index), extend the local dicts. -/
def addNodesStep (st : AddNodesState) (entry : Finset String × List (String × PyValue)) :
    AddNodesState :=
  let key := st.m.next_node_key
  { m := { st.m with
      nodes_by_label :=
        (entry.1.sort (· ≤ ·)).foldl (fun d lb => dsetAdd d lb key) st.m.nodes_by_label,
      next_node_key := st.m.next_node_key + 1 },
    acc := dinsert st.acc key ⟨entry.1, entry.2⟩,
    localLabels := (entry.1.sort (· ≤ ·)).foldl (fun d lb => dsetAdd d lb key) st.localLabels,
    keys := st.keys ++ [key] }

/-- `add_nodes(entries)`: run the loop, then `_update_nodes(nodes)` and
`_update_nodes_by_label(nodes_by_label)` under the lock; returns the new
keys in input order. -/
def add_nodes (m : MutableGraphStore)
    (entries : List (Finset String × List (String × PyValue))) :
    MutableGraphStore × List Nat :=
  let st := entries.foldl addNodesStep ⟨m, [], [], []⟩
  let m1 := { st.m with
    nodes := st.acc.foldl (fun d (p : Nat × NodeEntry) => dinsert d p.1 p.2) st.m.nodes }
  let m2 := { m1 with
    nodes_by_label :=
      st.localLabels.foldl (fun d (p : String × Finset Nat) => dsetUnion d p.1 p.2) m1.nodes_by_label }
  (m2, st.keys)

/-- One iteration of `remove_relationships`: delete from the primary map
(silently skipping unknown keys), then `discard_value` from the type index
and from every endpoint's node-index bucket. -/
def removeRelOne (m : MutableGraphStore) (rk : Nat) : MutableGraphStore :=
  match dlookup m.relationships rk with
  | none => m
  | some e =>
    { m with
      relationships := derase m.relationships rk,
      relationships_by_type := ddiscardDrop m.relationships_by_type e.rtype rk,
      relationships_by_node := (enumerateNodes e.nodes).foldl
        (fun d q => ddiscardDrop d q.2 (rk, q.1)) m.relationships_by_node }

/-- `remove_relationships(r_keys)` (the argument is materialised by
`list(r_keys)` before any mutation). -/
def remove_relationships (m : MutableGraphStore) (rks : List Nat) : MutableGraphStore :=
  rks.foldl removeRelOne m

/-- One iteration of `remove_nodes`: delete the node (skipping unknown
keys), `discard_value` it from each of its label buckets, then cascade into
`remove_relationships` with every relationship key indexed against it. -/
def removeNodeOne (m : MutableGraphStore) (nk : Nat) : MutableGraphStore :=
  match dlookup m.nodes nk with
  | none => m
  | some e =>
    let m2 := { m with
      nodes := derase m.nodes nk,
      nodes_by_label :=
        (e.labels.sort (· ≤ ·)).foldl (fun d lb => ddiscardDrop d lb nk) m.nodes_by_label }
    match dlookup m2.relationships_by_node nk with
    | some b => remove_relationships m2 ((b.image Prod.fst).sort (· ≤ ·))
    | none => m2

/-- `remove_nodes(n_keys)`. -/
def remove_nodes (m : MutableGraphStore) (nks : List Nat) : MutableGraphStore :=
  nks.foldl removeNodeOne m

/-- `add_relationships(entries)`: per entry generate a key, insert the
entry, add the key to the type bucket and `(key, role)` to every endpoint's
node bucket; returns keys in input order. -/
def add_relationships (m : MutableGraphStore)
    (entries : List (String × List Nat × List (String × PyValue))) :
    MutableGraphStore × List Nat :=
  match entries with
  | [] => (m, [])
  | (t, nks, props) :: rest =>
    let rk := m.next_relationship_key
    let m1 : MutableGraphStore := { m with
      relationships := dinsert m.relationships rk ⟨t, nks, props⟩,
      relationships_by_type := dsetAdd m.relationships_by_type t rk,
      relationships_by_node := (enumerateNodes nks).foldl
        (fun d q => dsetAdd d q.2 (rk, q.1)) m.relationships_by_node,
      next_relationship_key := m.next_relationship_key + 1 }
    let rec2 := add_relationships m1 rest
    (rec2.1, rk :: rec2.2)

/-- The four batch mutation operations of claim C1. -/
inductive MutOp where
  | addNodes (entries : List (Finset String × List (String × PyValue)))
  | removeNodes (keys : List Nat)
  | addRelationships (entries : List (String × List Nat × List (String × PyValue)))
  | removeRelationships (keys : List Nat)

/-- Apply one batch operation (discarding the returned key lists). -/
def applyOp (m : MutableGraphStore) : MutOp → MutableGraphStore
  | .addNodes es => (add_nodes m es).1
  | .removeNodes ks => remove_nodes m ks
  | .addRelationships es => (add_relationships m es).1
  | .removeRelationships ks => remove_relationships m ks

/-- Apply a sequence of batch operations. -/
def applyOps (m : MutableGraphStore) (ops : List MutOp) : MutableGraphStore :=
  ops.foldl applyOp m

/-! ### Live label edits through a node's `ReactiveSet` -/

/-- The mutating operations available on a live node's label set. -/
inductive LabelOp where
  | ior (o : Finset String)
  | iand (o : Finset String)
  | isub (o : Finset String)
  | ixor (o : Finset String)
  | addLb (lb : String)
  | removeLb (lb : String)
  | discardLb (lb : String)
  | popLb (lb : String)
  | clearLbs

/-- Edit the label set of the live node `nk` through its `ReactiveSet`:
compute the delta the operation produces, store the post state in the node
entry, and run the `on_add` / `on_remove` callbacks, which respectively
`setdefault(label, set()).add(key)` and (`try`) `…[label].discard(key)` on
the store's label index.  A failed `remove` raises before mutating, hence
the identity delta; `pop` is modelled as popping the named element when it
is a member. -/
def applyLabelOp (m : MutableGraphStore) (nk : Nat) (op : LabelOp) : MutableGraphStore :=
  match dlookup m.nodes nk with
  | none => m
  | some e =>
    let d : RSDelta String :=
      match op with
      | .ior o => rsIor e.labels o
      | .iand o => rsIand e.labels o
      | .isub o => rsIsub e.labels o
      | .ixor o => rsIxor e.labels o
      | .addLb lb => rsAdd e.labels lb
      | .removeLb lb => (rsRemoveEl e.labels lb).getD ⟨e.labels, ∅, ∅⟩
      | .discardLb lb => rsDiscard e.labels lb
      | .popLb lb => if lb ∈ e.labels then rsPop e.labels lb else ⟨e.labels, ∅, ∅⟩
      | .clearLbs => rsClear e.labels
    { m with
      nodes := dinsert m.nodes nk ⟨d.post, e.properties⟩,
      nodes_by_label := (d.removed.sort (· ≤ ·)).foldl (fun dd lb => ddiscardKeep dd lb nk)
        ((d.added.sort (· ≤ ·)).foldl (fun dd lb => dsetAdd dd lb nk) m.nodes_by_label) }

/-! ### Live property edits through an entry's `PropertyDict` -/

/-- `PropertyDict.__setitem__`: a `None` value deletes the key (a raised
`KeyError` is passed over silently); any other value is coerced with the
general `Value` policy and stored — coercion raises before the dict is
touched, so a failing value leaves the properties unchanged. -/
def pdSetItem (props : List (String × PyValue)) (k : String) (v : PyValue) :
    List (String × PyValue) :=
  match v with
  | .none => derase props k
  | _ =>
    match coerceVal .value v with
    | .ok v2 => dinsert props k v2
    | .error _ => props

/-- `PropertyDict.__delitem__` (the inherited `dict` delete; a raised
`KeyError` leaves the dict unchanged). -/
def pdDelItem (props : List (String × PyValue)) (k : String) :
    List (String × PyValue) :=
  derase props k

/-- The mutating operations available on a live entry's `PropertyDict`
(`update` and `setdefault` are loops of `__setitem__`). -/
inductive PropOp where
  | setItem (k : String) (v : PyValue)
  | delItem (k : String)

/-- Apply one `PropertyDict` mutation to a property map. -/
def applyPropOp (props : List (String × PyValue)) : PropOp → List (String × PyValue)
  | .setItem k v => pdSetItem props k v
  | .delItem k => pdDelItem props k

/-- Edit the properties of the live node `nk` through the `PropertyDict`
held in its entry: the stored `NodeEntry` carries the dict itself, so the
edit is visible in the store's node map. -/
def applyNodePropOp (m : MutableGraphStore) (nk : Nat) (op : PropOp) :
    MutableGraphStore :=
  match dlookup m.nodes nk with
  | none => m
  | some e =>
    { m with nodes := dinsert m.nodes nk ⟨e.labels, applyPropOp e.properties op⟩ }

/-- Edit the properties of the live relationship `rk` through the
`PropertyDict` held in its entry. -/
def applyRelPropOp (m : MutableGraphStore) (rk : Nat) (op : PropOp) :
    MutableGraphStore :=
  match dlookup m.relationships rk with
  | none => m
  | some e =>
    { m with relationships :=
        dinsert m.relationships rk ⟨e.rtype, e.nodes, applyPropOp e.properties op⟩ }

/-- A mutation of the mutable store: a batch operation, a live label edit,
or a live property edit of a node or relationship entry. -/
inductive ExtOp where
  | batch (op : MutOp)
  | labelEdit (nk : Nat) (op : LabelOp)
  | nodePropEdit (nk : Nat) (op : PropOp)
  | relPropEdit (rk : Nat) (op : PropOp)

/-- Apply one extended mutation. -/
def applyExtOp (m : MutableGraphStore) : ExtOp → MutableGraphStore
  | .batch op => applyOp m op
  | .labelEdit nk op => applyLabelOp m nk op
  | .nodePropEdit nk op => applyNodePropOp m nk op
  | .relPropEdit rk op => applyRelPropOp m rk op

/-- Apply a sequence of extended mutations. -/
def applyExtOps (m : MutableGraphStore) (ops : List ExtOp) : MutableGraphStore :=
  ops.foldl applyExtOp m

/-! ### Re-scan specifications and validity predicates -/

/-- What a re-scan produces at label `L`: the set of node keys whose entry
carries `L`, and no binding at all when that set is empty. -/
def labelBucketSpec (ns : List (Nat × NodeEntry)) (L : String) : Option (Finset Nat) :=
  let b := ((ns.filter (fun p => L ∈ p.2.labels)).map Prod.fst).toFinset
  if b = ∅ then none else some b

/-- What a re-scan produces at type `T`. -/
def typeBucketSpec (rs : List (Nat × RelationshipEntry)) (T : String) : Option (Finset Nat) :=
  let b := ((rs.filter (fun p => p.2.rtype = T)).map Prod.fst).toFinset
  if b = ∅ then none else some b

/-- The `(key, role)` pairs a single relationship contributes to node `N`'s
bucket. -/
def relPairsAt (rk : Nat) (nodes : List Nat) (N : Nat) : List (Nat × Int) :=
  (enumerateNodes nodes).filterMap (fun q => if q.2 = N then some (rk, q.1) else none)

/-- What a re-scan produces at node `N`: every `(relationship, role)` pair
where `N` occupies that role. -/
def nodeBucketSpec (rs : List (Nat × RelationshipEntry)) (N : Nat) :
    Option (Finset (Nat × Int)) :=
  let b := (rs.flatMap (fun p => relPairsAt p.1 p.2.nodes N)).toFinset
  if b = ∅ then none else some b

/-- All three indices agree (pointwise, as key-to-bucket maps) with a full
re-scan of the primary maps. -/
def GraphStore.Matches (s : GraphStore) : Prop :=
  (∀ L, dlookup s.nodes_by_label L = labelBucketSpec s.nodes L) ∧
  (∀ T, dlookup s.relationships_by_type T = typeBucketSpec s.relationships T) ∧
  (∀ N, dlookup s.relationships_by_node N = nodeBucketSpec s.relationships N)

/-- Validity of a mutable store: indices agree with a re-scan, the primary
maps are duplicate-free, and every key is below the corresponding
generator (the freshness `uuid4()` provides). -/
def MutableGraphStore.Valid (m : MutableGraphStore) : Prop :=
  m.toStore.Matches ∧
  (dkeys m.nodes).Nodup ∧ (dkeys m.relationships).Nodup ∧
  (∀ k ∈ dkeys m.nodes, k < m.next_node_key) ∧
  (∀ k ∈ dkeys m.relationships, k < m.next_relationship_key)

/-- Claim C1's conclusion: each secondary index equals (as a key-to-bucket
map) the index a full re-scan of the primary maps builds. -/
def MutableGraphStore.MatchesRebuild (m : MutableGraphStore) : Prop :=
  (∀ L, dlookup m.nodes_by_label L = dlookup (buildNodesByLabel m.nodes) L) ∧
  (∀ T, dlookup m.relationships_by_type T =
    dlookup (buildRelationshipsByType m.relationships) T) ∧
  (∀ N, dlookup m.relationships_by_node N =
    dlookup (buildRelationshipsByNode m.relationships) N)

/-- Claim C2's conclusion for a cascade-removed relationship `rk`: the three
accessors answer with the `None` sentinel and no index bucket mentions it. -/
def C2RemovalSpec (m2 : MutableGraphStore) (rk : Nat) : Prop :=
  m2.toStore.relationship_type rk = none ∧
  m2.toStore.relationship_nodes rk = none ∧
  m2.toStore.relationship_properties rk = none ∧
  (∀ T, rk ∉ (dlookup m2.relationships_by_type T).getD ∅) ∧
  (∀ N p, p ∈ (dlookup m2.relationships_by_node N).getD ∅ → p.1 ≠ rk)

/-- Claim C3's query behaviour for a relationship `r` with endpoint list
`(A, B, C)`: all three single-position queries match it — `A` in the first
role, `C` in the last role, and `B` in the interior role `1`, which is also
the role position `1` of a length-3 query receives. -/
def C3QuerySpec (s : GraphStore) (r A B C : Nat) : Prop :=
  r ∈ s.relationshipsSeq none [some A, none, none] ∧
  r ∈ s.relationshipsSeq none [none, none, some C] ∧
  r ∈ s.relationshipsSeq none [none, some B, none]

/-- The label index is sound and complete for membership: a key sits in a
label's bucket exactly when that node currently carries the label. -/
def LabelIndexSound (m : MutableGraphStore) : Prop :=
  ∀ L n, n ∈ (dlookup m.nodes_by_label L).getD ∅ ↔
    ∃ e, dlookup m.nodes n = some e ∧ L ∈ e.labels

/-- The label-edit-robust part of store validity: membership-exact label
index, duplicate-free node map, bounded node keys. -/
def LabelState (m : MutableGraphStore) : Prop :=
  LabelIndexSound m ∧ (dkeys m.nodes).Nodup ∧
  (∀ k ∈ dkeys m.nodes, k < m.next_node_key)

/-! ### Concrete stores used by counterexamples and witnesses -/

/-- A store with three nodes `0, 1, 2` and one arity-3 relationship
`10 : T(0, 1, 2)`, built by `GraphStore.__init__` (indices re-scanned). -/
def c3Store : GraphStore :=
  mkGraphStore [(0, ⟨∅, []⟩), (1, ⟨∅, []⟩), (2, ⟨∅, []⟩)]
    [(10, ⟨"T", [0, 1, 2], []⟩)]

/-- A valid mutable store holding one node `0` labelled `X`. -/
def c4Store : MutableGraphStore :=
  ⟨[(0, ⟨{"X"}, []⟩)], [], [("X", {0})], [], [], 1, 0⟩

/-- A batch program exercising all four mutation operations (used to
instantiate the C1 statement on a concrete run). -/
def c1Program : List MutOp :=
  [.addNodes [({"X"}, []), ({"X", "Y"}, [])],
   .addRelationships [("KNOWS", [0, 1], [])],
   .removeNodes [0]]

/-- A valid mutable store with nodes `0`, `1` and one relationship
`5 : T(0, 1)` (used to instantiate the C2 statement). -/
def c2Store : MutableGraphStore :=
  ⟨[(0, ⟨∅, []⟩), (1, ⟨∅, []⟩)], [(5, ⟨"T", [0, 1], []⟩)],
    [], [("T", {5})], [(0, {(5, 0)}), (1, {(5, -1)})], 2, 6⟩

/-- One step of the world holding the mutable store and a frozen snapshot
taken earlier: mutating operations act on the mutable component only, since
a `FrozenGraphStore` exposes no mutating method and `FrozenGraphStore.__init__`
copies every collection out of the source store instead of aliasing it. -/
def snapshotWorldStep (w : MutableGraphStore × GraphStore) (op : ExtOp) :
    MutableGraphStore × GraphStore :=
  (applyExtOp w.1 op, w.2)

/-- Take a frozen snapshot of a mutable store (`FrozenGraphStore(m)`),
keeping the mutable store alongside it. -/
def takeSnapshot (m : MutableGraphStore) : MutableGraphStore × GraphStore :=
  (m, freeze m)

/-- A two-node, one-relationship store (used to instantiate C8). -/
def c8StoreA : MutableGraphStore :=
  ⟨[(0, ⟨{"X"}, []⟩), (1, ⟨∅, []⟩)], [(5, ⟨"T", [0, 1], []⟩)],
    [("X", {0})], [("T", {5})], [(0, {(5, 0)}), (1, {(5, -1)})], 2, 6⟩

/-- The same contents as `c8StoreA` assembled in the opposite order. -/
def c8StoreB : MutableGraphStore :=
  ⟨[(1, ⟨∅, []⟩), (0, ⟨{"X"}, []⟩)], [(5, ⟨"T", [0, 1], []⟩)],
    [("X", {0})], [("T", {5})], [(0, {(5, 0)}), (1, {(5, -1)})], 2, 6⟩

/-! ## Lemmas: dictionaries -/

section DictLemmas

variable {κ β : Type} [DecidableEq κ]

@[simp] theorem dlookup_nil (k : κ) : dlookup ([] : List (κ × β)) k = none := rfl

theorem dlookup_dinsert (l : List (κ × β)) (k k' : κ) (v : β) :
    dlookup (dinsert l k v) k' = if k = k' then some v else dlookup l k' := by
  induction l with
  | nil =>
    by_cases h' : k = k' <;> simp [dinsert, dlookup, h']
  | cons p t ih =>
    by_cases h : p.1 = k
    · by_cases h' : k = k'
      · simp [dinsert, dlookup, h, h']
      · have hp : ¬ p.1 = k' := by rw [h]; exact h'
        simp [dinsert, dlookup, h, h', hp]
    · by_cases h' : p.1 = k'
      · have hk : ¬ k = k' := fun e => h (h'.trans e.symm)
        have hk2 : ¬ k' = k := fun e => hk e.symm
        simp [dinsert, dlookup, h, h', hk, hk2]
      · simp [dinsert, dlookup, h, h', ih]

theorem dlookup_derase (l : List (κ × β)) (k k' : κ) :
    dlookup (derase l k) k' = if k = k' then none else dlookup l k' := by
  induction l with
  | nil => by_cases h' : k = k' <;> simp [derase, h']
  | cons p t ih =>
    by_cases h : p.1 = k
    · by_cases h' : k = k'
      · subst h'
        simp [derase, h, ih]
      · have hp : ¬ p.1 = k' := by rw [h]; exact h'
        simp [derase, dlookup, h, h', hp, ih]
    · by_cases h' : p.1 = k'
      · have hk : ¬ k = k' := fun e => h (h'.trans e.symm)
        have hk2 : ¬ k' = k := fun e => hk e.symm
        simp [derase, dlookup, h, h', hk, hk2]
      · simp [derase, dlookup, h, h', ih]

theorem mem_dkeys (l : List (κ × β)) (k : κ) :
    k ∈ dkeys l ↔ dlookup l k ≠ none := by
  induction l with
  | nil => simp [dkeys]
  | cons p t ih =>
    by_cases h : p.1 = k <;> simp [dkeys, dlookup, h, ← ih, eq_comm (a := k)]

theorem mem_dkeys_dinsert (l : List (κ × β)) (k : κ) (v : β) (a : κ) :
    a ∈ dkeys (dinsert l k v) ↔ a = k ∨ a ∈ dkeys l := by
  rw [mem_dkeys, dlookup_dinsert, mem_dkeys]
  by_cases h : a = k <;> simp [h, eq_comm (a := k)]

theorem mem_dkeys_derase (l : List (κ × β)) (k : κ) (a : κ) :
    a ∈ dkeys (derase l k) ↔ ¬ a = k ∧ a ∈ dkeys l := by
  rw [mem_dkeys, dlookup_derase, mem_dkeys]
  by_cases h : a = k <;> simp [h, eq_comm (a := k)]

theorem nodup_dkeys_dinsert (l : List (κ × β)) (k : κ) (v : β)
    (h : (dkeys l).Nodup) : (dkeys (dinsert l k v)).Nodup := by
  induction l with
  | nil => simp [dinsert, dkeys]
  | cons p t ih =>
    have h1 : p.1 ∉ dkeys t := (List.nodup_cons.mp (by simpa [dkeys] using h)).1
    have h2 : (dkeys t).Nodup := (List.nodup_cons.mp (by simpa [dkeys] using h)).2
    by_cases hp : p.1 = k
    · have he : dkeys (dinsert (p :: t) k v) = k :: dkeys t := by simp [dinsert, dkeys, hp]
      rw [he, List.nodup_cons]
      exact ⟨hp ▸ h1, h2⟩
    · have he : dkeys (dinsert (p :: t) k v) = p.1 :: dkeys (dinsert t k v) := by
        simp [dinsert, dkeys, hp]
      rw [he, List.nodup_cons]
      refine ⟨fun hm => ?_, ih h2⟩
      rcases (mem_dkeys_dinsert t k v p.1).mp hm with e | e
      · exact hp e
      · exact h1 e

theorem nodup_dkeys_derase (l : List (κ × β)) (k : κ)
    (h : (dkeys l).Nodup) : (dkeys (derase l k)).Nodup := by
  induction l with
  | nil => simp [derase, dkeys]
  | cons p t ih =>
    have h1 : p.1 ∉ dkeys t := (List.nodup_cons.mp (by simpa [dkeys] using h)).1
    have h2 : (dkeys t).Nodup := (List.nodup_cons.mp (by simpa [dkeys] using h)).2
    by_cases hp : p.1 = k
    · simpa [derase, hp] using ih h2
    · have he : dkeys (derase (p :: t) k) = p.1 :: dkeys (derase t k) := by
        simp [derase, dkeys, hp]
      rw [he, List.nodup_cons]
      exact ⟨fun hm => h1 ((mem_dkeys_derase t k p.1).mp hm).2, ih h2⟩

theorem dinsert_lookup_self (l : List (κ × β)) (k : κ) (v : β)
    (h : dlookup l k = some v) : dinsert l k v = l := by
  induction l with
  | nil => simp [dlookup] at h
  | cons p t ih =>
    by_cases hp : p.1 = k
    · obtain ⟨a, b⟩ := p
      simp at hp
      subst hp
      simp [dlookup] at h
      simp [dinsert, h]
    · simp [dlookup, hp] at h
      simp [dinsert, hp, ih h]

theorem dinsert_fresh (l : List (κ × β)) (k : κ) (v : β)
    (h : k ∉ dkeys l) : dinsert l k v = l ++ [(k, v)] := by
  induction l with
  | nil => simp [dinsert]
  | cons p t ih =>
    simp [dkeys] at h
    push_neg at h
    have hp : ¬ p.1 = k := fun e => h.1 e.symm
    simp [dinsert, hp]
    exact ih (by simpa [dkeys] using h.2)

theorem dlookup_mem (l : List (κ × β)) (k : κ) (v : β)
    (h : dlookup l k = some v) : (k, v) ∈ l := by
  induction l with
  | nil => simp [dlookup] at h
  | cons p t ih =>
    by_cases hp : p.1 = k
    · obtain ⟨a, b⟩ := p
      simp at hp
      subst hp
      simp [dlookup] at h
      rw [← h]
      exact List.mem_cons_self _ _
    · simp [dlookup, hp] at h
      exact List.mem_cons_of_mem _ (ih h)

theorem dlookup_append (l1 l2 : List (κ × β)) (k : κ) :
    dlookup (l1 ++ l2) k =
      match dlookup l1 k with
      | some v => some v
      | none => dlookup l2 k := by
  induction l1 with
  | nil => simp [dlookup]
  | cons p t ih =>
    by_cases hp : p.1 = k <;> simp [dlookup, hp, ih]

theorem derase_of_not_mem (l : List (κ × β)) (k : κ)
    (h : k ∉ dkeys l) : derase l k = l := by
  induction l with
  | nil => simp [derase]
  | cons p t ih =>
    simp [dkeys] at h
    push_neg at h
    have hp : ¬ p.1 = k := fun e => h.1 e.symm
    simp [derase, hp]
    exact ih (by simpa [dkeys] using h.2)

theorem perm_dlookup (l1 l2 : List (κ × β)) (hp : l1.Perm l2)
    (hn : (dkeys l1).Nodup) (k : κ) : dlookup l1 k = dlookup l2 k := by
  revert hn
  induction hp with
  | nil => intro _; rfl
  | cons x h ih =>
    intro hn
    have hn2 : (dkeys _).Nodup := (List.nodup_cons.mp hn).2
    by_cases hx : x.1 = k <;> simp [dlookup, hx, ih hn2]
  | swap x y t =>
    intro hn
    have h0 : y.1 ∉ (x.1 :: dkeys t) := (List.nodup_cons.mp hn).1
    have hxy : ¬ y.1 = x.1 := fun e => h0 (by simp [e])
    by_cases hy : y.1 = k
    · have hx : ¬ x.1 = k := fun e => hxy (hy.trans e.symm)
      simp [dlookup, hy, hx]
    · by_cases hx : x.1 = k <;> simp [dlookup, hx, hy]
  | trans h1 h2 ih1 ih2 =>
    intro hn
    have hnmid : (dkeys _).Nodup := ((h1.map Prod.fst).nodup_iff).mp hn
    exact (ih1 hn).trans (ih2 hnmid)

theorem perm_cons_derase (l : List (κ × β)) (k : κ) (v : β)
    (h : dlookup l k = some v) (hn : (dkeys l).Nodup) :
    l.Perm ((k, v) :: derase l k) := by
  induction l with
  | nil => simp [dlookup] at h
  | cons p t ih =>
    have h1 : p.1 ∉ dkeys t := (List.nodup_cons.mp hn).1
    have h2 : (dkeys t).Nodup := (List.nodup_cons.mp hn).2
    by_cases hp : p.1 = k
    · obtain ⟨a, b⟩ := p
      simp at hp h1
      subst hp
      simp [dlookup] at h
      subst h
      have hde : derase t a = t := derase_of_not_mem t a (by simpa [dkeys] using h1)
      simp [derase, hde]
    · simp [dlookup, hp] at h
      have hperm := ih h h2
      have e1 : derase (p :: t) k = p :: derase t k := by simp [derase, hp]
      rw [e1]
      exact (hperm.cons p).trans (List.Perm.swap _ _ _)

end DictLemmas

/-! ## Lemmas: index-bucket helpers -/

section BucketLemmas

variable {κ α : Type} [DecidableEq κ] [DecidableEq α]

theorem dlookup_dsetAdd (l : List (κ × Finset α)) (k : κ) (a : α) (k' : κ) :
    dlookup (dsetAdd l k a) k' =
      if k = k' then some (insert a ((dlookup l k).getD ∅)) else dlookup l k' := by
  rw [dsetAdd, dlookup_dinsert]

theorem dlookup_dsetUnion (l : List (κ × Finset α)) (k : κ) (s : Finset α) (k' : κ) :
    dlookup (dsetUnion l k s) k' =
      if k = k' then some (((dlookup l k).getD ∅) ∪ s) else dlookup l k' := by
  rw [dsetUnion, dlookup_dinsert]

theorem dlookup_ddiscardDrop (l : List (κ × Finset α)) (k : κ) (a : α) (k' : κ) :
    dlookup (ddiscardDrop l k a) k' =
      if k = k' then
        match dlookup l k with
        | none => none
        | some b => if b.erase a = ∅ then none else some (b.erase a)
      else dlookup l k' := by
  unfold ddiscardDrop
  cases h : dlookup l k with
  | none =>
    by_cases hk : k = k'
    · subst hk
      simp [h]
    · simp [hk]
  | some b =>
    by_cases hb : b.erase a = ∅
    · simp [hb, dlookup_derase]
    · simp [hb, dlookup_dinsert]

theorem dlookup_ddiscardKeep (l : List (κ × Finset α)) (k : κ) (a : α) (k' : κ) :
    dlookup (ddiscardKeep l k a) k' =
      if k = k' then
        match dlookup l k with
        | none => none
        | some b => some (b.erase a)
      else dlookup l k' := by
  unfold ddiscardKeep
  cases h : dlookup l k with
  | none =>
    by_cases hk : k = k'
    · subst hk
      simp [h]
    · simp [hk]
  | some b => simp [dlookup_dinsert]

theorem mem_dlookup_dsetAdd (l : List (κ × Finset α)) (k : κ) (a : α) (k' : κ) (x : α) :
    x ∈ (dlookup (dsetAdd l k a) k').getD ∅ ↔
      (k = k' ∧ x = a) ∨ x ∈ (dlookup l k').getD ∅ := by
  rw [dlookup_dsetAdd]
  by_cases h : k = k'
  · subst h
    constructor
    · intro hx
      rcases Finset.mem_insert.mp (by simpa using hx) with e | e
      · exact Or.inl ⟨rfl, e⟩
      · exact Or.inr e
    · intro hx
      simp only [Option.getD_some]
      rcases hx with ⟨_, e⟩ | e
      · exact Finset.mem_insert.mpr (Or.inl e)
      · exact Finset.mem_insert.mpr (Or.inr e)
  · simp [h]

theorem mem_dlookup_ddiscardDrop (l : List (κ × Finset α)) (k : κ) (a : α) (k' : κ) (x : α) :
    x ∈ (dlookup (ddiscardDrop l k a) k').getD ∅ ↔
      x ∈ (dlookup l k').getD ∅ ∧ ¬ (k = k' ∧ x = a) := by
  rw [dlookup_ddiscardDrop]
  by_cases h : k = k'
  · subst h
    cases hb : dlookup l k with
    | none => simp
    | some b =>
      by_cases he : b.erase a = ∅
      · have : ∀ y, y ∈ b → y = a := by
          intro y hy
          by_contra hne
          exact absurd (Finset.mem_erase.mpr ⟨hne, hy⟩) (by simp [he])
        simp only [he]
        simp only [Option.getD_some, Option.getD_none]
        constructor
        · intro hx
          exact absurd hx (by simp)
        · rintro ⟨hx, hna⟩
          exact absurd (this x hx) (by tauto)
      · simp [he, Finset.mem_erase]
        tauto
  · simp [h]

theorem mem_dlookup_ddiscardKeep (l : List (κ × Finset α)) (k : κ) (a : α) (k' : κ) (x : α) :
    x ∈ (dlookup (ddiscardKeep l k a) k').getD ∅ ↔
      x ∈ (dlookup l k').getD ∅ ∧ ¬ (k = k' ∧ x = a) := by
  rw [dlookup_ddiscardKeep]
  by_cases h : k = k'
  · subst h
    cases hb : dlookup l k with
    | none => simp
    | some b =>
      simp [Finset.mem_erase]
      tauto
  · simp [h]

theorem dlookup_foldl_dsetAdd_list (ls : List κ) (d : List (κ × Finset α))
    (key : α) (L : κ) :
    dlookup (ls.foldl (fun d2 lb => dsetAdd d2 lb key) d) L =
      if L ∈ ls then some (insert key ((dlookup d L).getD ∅)) else dlookup d L := by
  induction ls generalizing d with
  | nil => simp
  | cons lb t ih =>
    have step := dlookup_dsetAdd d lb key L
    simp only [List.foldl_cons]
    rw [ih (dsetAdd d lb key)]
    by_cases hlb : lb = L
    · subst hlb
      by_cases ht : lb ∈ t
      · simp [ht, step, Finset.insert_idem]
      · simp [ht, step]
    · have hmm : (L ∈ lb :: t) ↔ L ∈ t := by
        simp only [List.mem_cons, or_iff_right_iff_imp]
        intro e
        exact absurd e.symm hlb
      by_cases ht : L ∈ t
      · simp [ht, hmm, step, hlb]
      · simp [ht, hmm, step, hlb]

theorem mem_foldl_dsetAdd_list (ls : List κ) (d : List (κ × Finset α))
    (key : α) (L : κ) (x : α) :
    x ∈ (dlookup (ls.foldl (fun d2 lb => dsetAdd d2 lb key) d) L).getD ∅ ↔
      (L ∈ ls ∧ x = key) ∨ x ∈ (dlookup d L).getD ∅ := by
  rw [dlookup_foldl_dsetAdd_list]
  by_cases h : L ∈ ls <;> simp [h]

theorem mem_foldl_ddiscardDrop_list (ls : List κ) (d : List (κ × Finset α))
    (key : α) (L : κ) (x : α) :
    x ∈ (dlookup (ls.foldl (fun d2 lb => ddiscardDrop d2 lb key) d) L).getD ∅ ↔
      x ∈ (dlookup d L).getD ∅ ∧ ¬ (L ∈ ls ∧ x = key) := by
  induction ls generalizing d with
  | nil => simp
  | cons lb t ih =>
    simp only [List.foldl_cons]
    rw [ih (ddiscardDrop d lb key)]
    rw [mem_dlookup_ddiscardDrop]
    constructor
    · rintro ⟨⟨hx, hno⟩, hnt⟩
      refine ⟨hx, ?_⟩
      rintro ⟨hmem, hkey⟩
      rcases List.mem_cons.mp hmem with e | e
      · exact hno ⟨e.symm, hkey⟩
      · exact hnt ⟨e, hkey⟩
    · rintro ⟨hx, hno⟩
      refine ⟨⟨hx, ?_⟩, ?_⟩
      · rintro ⟨e, hkey⟩
        exact hno ⟨by simp [← e], hkey⟩
      · rintro ⟨hmem, hkey⟩
        exact hno ⟨by simp [hmem], hkey⟩

theorem mem_foldl_ddiscardKeep_list (ls : List κ) (d : List (κ × Finset α))
    (key : α) (L : κ) (x : α) :
    x ∈ (dlookup (ls.foldl (fun d2 lb => ddiscardKeep d2 lb key) d) L).getD ∅ ↔
      x ∈ (dlookup d L).getD ∅ ∧ ¬ (L ∈ ls ∧ x = key) := by
  induction ls generalizing d with
  | nil => simp
  | cons lb t ih =>
    simp only [List.foldl_cons]
    rw [ih (ddiscardKeep d lb key)]
    rw [mem_dlookup_ddiscardKeep]
    constructor
    · rintro ⟨⟨hx, hno⟩, hnt⟩
      refine ⟨hx, ?_⟩
      rintro ⟨hmem, hkey⟩
      rcases List.mem_cons.mp hmem with e | e
      · exact hno ⟨e.symm, hkey⟩
      · exact hnt ⟨e, hkey⟩
    · rintro ⟨hx, hno⟩
      refine ⟨⟨hx, ?_⟩, ?_⟩
      · rintro ⟨e, hkey⟩
        exact hno ⟨by simp [← e], hkey⟩
      · rintro ⟨hmem, hkey⟩
        exact hno ⟨by simp [hmem], hkey⟩

theorem dlookup_foldl_ddiscardDrop_list (ls : List κ) (d : List (κ × Finset α))
    (key : α) (L : κ) (hne : ∀ b, dlookup d L = some b → b ≠ ∅) :
    dlookup (ls.foldl (fun d2 lb => ddiscardDrop d2 lb key) d) L =
      match dlookup d L with
      | none => none
      | some b =>
        if L ∈ ls then (if b.erase key = ∅ then none else some (b.erase key))
        else some b := by
  induction ls generalizing d with
  | nil =>
    cases h : dlookup d L <;> simp [h]
  | cons lb t ih =>
    have hne2 : ∀ b, dlookup (ddiscardDrop d lb key) L = some b → b ≠ ∅ := by
      intro b hb
      rw [dlookup_ddiscardDrop] at hb
      by_cases hk : lb = L
      · simp only [hk, if_pos rfl] at hb
        cases h0 : dlookup d L with
        | none => rw [h0] at hb; simp at hb
        | some b0 =>
          rw [h0] at hb
          by_cases he : b0.erase key = ∅ <;> simp [he] at hb
          rw [← hb]
          exact he
      · simp only [hk, if_neg hk] at hb
        exact hne b hb
    simp only [List.foldl_cons]
    rw [ih (ddiscardDrop d lb key) hne2]
    rw [dlookup_ddiscardDrop]
    by_cases hk : lb = L
    · subst hk
      cases h0 : dlookup d lb with
      | none => simp
      | some b0 =>
        by_cases he : b0.erase key = ∅
        · simp [he]
        · by_cases ht : lb ∈ t
          · simp [he, ht, Finset.erase_idem]
          · simp [he, ht]
    · have hmem : (L ∈ lb :: t) ↔ L ∈ t := by
        simp only [List.mem_cons, or_iff_right_iff_imp]
        intro e
        exact absurd e.symm hk
      cases h0 : dlookup d L with
      | none => simp [hk, h0]
      | some b0 =>
        by_cases ht : L ∈ t
        · simp [hk, ht, hmem, h0]
        · simp [hk, ht, hmem, h0]

end BucketLemmas

/-! ## Lemmas: node-index folds over enumerated endpoints -/

section PairFoldLemmas

theorem finset_sdiff_insert {γ : Type} [DecidableEq γ] (b : Finset γ) (x : γ) (S : Finset γ) :
    b \ insert x S = (b.erase x) \ S := by
  ext y
  simp only [Finset.mem_sdiff, Finset.mem_insert, Finset.mem_erase]
  tauto

theorem dlookup_foldl_dsetAdd_pairs (ps : List (Int × Nat))
    (d : List (Nat × Finset (Nat × Int))) (rk N : Nat) :
    dlookup (ps.foldl (fun d2 q => dsetAdd d2 q.2 (rk, q.1)) d) N =
      if (ps.filterMap (fun q => if q.2 = N then some (rk, q.1) else none)).toFinset = ∅
      then dlookup d N
      else some (((dlookup d N).getD ∅) ∪
        (ps.filterMap (fun q => if q.2 = N then some (rk, q.1) else none)).toFinset) := by
  induction ps generalizing d with
  | nil => simp
  | cons q t ih =>
    simp only [List.foldl_cons]
    rw [ih (dsetAdd d q.2 (rk, q.1))]
    have step := dlookup_dsetAdd d q.2 (rk, q.1) N
    by_cases hq : q.2 = N
    · rw [if_pos hq] at step
      have hcons : List.filterMap (fun q => if q.2 = N then some (rk, q.1) else none) (q :: t)
          = (rk, q.1) :: List.filterMap (fun q => if q.2 = N then some (rk, q.1) else none) t := by
        rw [List.filterMap_cons]
        simp [hq]
      rw [hcons, List.toFinset_cons]
      by_cases ht :
          (t.filterMap (fun q => if q.2 = N then some (rk, q.1) else none)).toFinset = ∅
      · rw [ht, if_pos rfl, step, if_neg (by simp), hq]
        congr 1
        rw [Finset.union_insert, Finset.union_empty]
      · rw [if_neg ht, if_neg (by simp), step, hq]
        simp only [Option.getD_some]
        congr 1
        rw [Finset.insert_union, Finset.union_insert]
    · rw [if_neg hq] at step
      have hcons : List.filterMap (fun q => if q.2 = N then some (rk, q.1) else none) (q :: t)
          = List.filterMap (fun q => if q.2 = N then some (rk, q.1) else none) t := by
        rw [List.filterMap_cons]
        simp [hq]
      rw [hcons, step]

theorem dlookup_foldl_ddiscardDrop_pairs (ps : List (Int × Nat))
    (d : List (Nat × Finset (Nat × Int))) (rk N : Nat)
    (hne : ∀ b, dlookup d N = some b → b ≠ ∅) :
    dlookup (ps.foldl (fun d2 q => ddiscardDrop d2 q.2 (rk, q.1)) d) N =
      match dlookup d N with
      | none => none
      | some b =>
        if b \ (ps.filterMap (fun q => if q.2 = N then some (rk, q.1) else none)).toFinset = ∅
        then none
        else some
          (b \ (ps.filterMap (fun q => if q.2 = N then some (rk, q.1) else none)).toFinset) := by
  induction ps generalizing d with
  | nil =>
    cases h : dlookup d N with
    | none => simp [h]
    | some b => simp [h, hne b h]
  | cons q t ih =>
    have step := dlookup_ddiscardDrop d q.2 (rk, q.1) N
    simp only [List.foldl_cons]
    by_cases hq : q.2 = N
    · have hcons : List.filterMap (fun q => if q.2 = N then some (rk, q.1) else none) (q :: t)
          = (rk, q.1) :: List.filterMap (fun q => if q.2 = N then some (rk, q.1) else none) t := by
        rw [List.filterMap_cons]
        simp [hq]
      cases h0 : dlookup d N with
      | none =>
        have hd2 : dlookup (ddiscardDrop d q.2 (rk, q.1)) N = none := by
          rw [step, if_pos hq, hq, h0]
        have hne2 : ∀ b, dlookup (ddiscardDrop d q.2 (rk, q.1)) N = some b → b ≠ ∅ := by
          intro b hb
          rw [hd2] at hb
          exact absurd hb (by simp)
        rw [ih _ hne2, hd2, hcons]
      | some b =>
        by_cases he : b.erase (rk, q.1) = ∅
        · have hd2 : dlookup (ddiscardDrop d q.2 (rk, q.1)) N = none := by
            rw [step, if_pos hq, hq, h0]
            simp [he]
          have hne2 : ∀ b, dlookup (ddiscardDrop d q.2 (rk, q.1)) N = some b → b ≠ ∅ := by
            intro b hb
            rw [hd2] at hb
            exact absurd hb (by simp)
          rw [ih _ hne2, hd2, hcons, List.toFinset_cons]
          simp [finset_sdiff_insert, he]
        · have hd2 : dlookup (ddiscardDrop d q.2 (rk, q.1)) N = some (b.erase (rk, q.1)) := by
            rw [step, if_pos hq, hq, h0]
            simp [he]
          have hne2 : ∀ c, dlookup (ddiscardDrop d q.2 (rk, q.1)) N = some c → c ≠ ∅ := by
            intro c hc
            rw [hd2] at hc
            rw [← Option.some_inj.mp hc]
            exact he
          rw [ih _ hne2, hd2, hcons, List.toFinset_cons]
          simp only [finset_sdiff_insert]
    · have hcons : List.filterMap (fun q => if q.2 = N then some (rk, q.1) else none) (q :: t)
          = List.filterMap (fun q => if q.2 = N then some (rk, q.1) else none) t := by
        rw [List.filterMap_cons]
        simp [hq]
      have hd2 : dlookup (ddiscardDrop d q.2 (rk, q.1)) N = dlookup d N := by
        rw [step, if_neg hq]
      have hne2 : ∀ b, dlookup (ddiscardDrop d q.2 (rk, q.1)) N = some b → b ≠ ∅ := by
        intro b hb
        rw [hd2] at hb
        exact hne b hb
      rw [ih _ hne2, hd2, hcons]

end PairFoldLemmas

/-! ## Lemmas: re-scan specifications -/

section SpecLemmas

/-- Combining two optional buckets the way bucket unions behave. -/
def obUnion {γ : Type} [DecidableEq γ] :
    Option (Finset γ) → Option (Finset γ) → Option (Finset γ)
  | none, o => o
  | some b, none => some b
  | some b, some c => some (b ∪ c)

theorem obucket_union {γ : Type} [DecidableEq γ] (b1 b2 : Finset γ) :
    (if b1 ∪ b2 = ∅ then none else some (b1 ∪ b2)) =
      obUnion (if b1 = ∅ then none else some b1) (if b2 = ∅ then none else some b2) := by
  by_cases h1 : b1 = ∅ <;> by_cases h2 : b2 = ∅ <;>
    simp [obUnion, h1, h2, Finset.union_eq_empty]

theorem labelBucketSpec_append (l1 l2 : List (Nat × NodeEntry)) (L : String) :
    labelBucketSpec (l1 ++ l2) L =
      obUnion (labelBucketSpec l1 L) (labelBucketSpec l2 L) := by
  unfold labelBucketSpec
  rw [List.filter_append, List.map_append, List.toFinset_append]
  exact obucket_union _ _

theorem typeBucketSpec_append (l1 l2 : List (Nat × RelationshipEntry)) (T : String) :
    typeBucketSpec (l1 ++ l2) T =
      obUnion (typeBucketSpec l1 T) (typeBucketSpec l2 T) := by
  unfold typeBucketSpec
  rw [List.filter_append, List.map_append, List.toFinset_append]
  exact obucket_union _ _

theorem nodeBucketSpec_append (l1 l2 : List (Nat × RelationshipEntry)) (N : Nat) :
    nodeBucketSpec (l1 ++ l2) N =
      obUnion (nodeBucketSpec l1 N) (nodeBucketSpec l2 N) := by
  unfold nodeBucketSpec
  rw [List.flatMap_append, List.toFinset_append]
  exact obucket_union _ _

theorem labelBucketSpec_single (k : Nat) (e : NodeEntry) (L : String) :
    labelBucketSpec [(k, e)] L = if L ∈ e.labels then some {k} else none := by
  by_cases h : L ∈ e.labels <;>
    simp [labelBucketSpec, List.filter_cons, h]

theorem typeBucketSpec_single (k : Nat) (e : RelationshipEntry) (T : String) :
    typeBucketSpec [(k, e)] T = if e.rtype = T then some {k} else none := by
  by_cases h : e.rtype = T <;>
    simp [typeBucketSpec, List.filter_cons, h]

theorem nodeBucketSpec_single (k : Nat) (e : RelationshipEntry) (N : Nat) :
    nodeBucketSpec [(k, e)] N =
      if (relPairsAt k e.nodes N).toFinset = ∅ then none
      else some (relPairsAt k e.nodes N).toFinset := by
  simp [nodeBucketSpec]

theorem labelBucketSpec_perm (l1 l2 : List (Nat × NodeEntry)) (h : l1.Perm l2)
    (L : String) : labelBucketSpec l1 L = labelBucketSpec l2 L := by
  unfold labelBucketSpec
  rw [List.toFinset_eq_of_perm _ _ ((h.filter _).map Prod.fst)]

theorem typeBucketSpec_perm (l1 l2 : List (Nat × RelationshipEntry)) (h : l1.Perm l2)
    (T : String) : typeBucketSpec l1 T = typeBucketSpec l2 T := by
  unfold typeBucketSpec
  rw [List.toFinset_eq_of_perm _ _ ((h.filter _).map Prod.fst)]

theorem nodeBucketSpec_perm (l1 l2 : List (Nat × RelationshipEntry)) (h : l1.Perm l2)
    (N : Nat) : nodeBucketSpec l1 N = nodeBucketSpec l2 N := by
  unfold nodeBucketSpec
  rw [List.toFinset_eq_of_perm _ _ (h.flatMap_right _)]

theorem labelBucketSpec_ne_empty (l : List (Nat × NodeEntry)) (L : String) (b : Finset Nat)
    (h : labelBucketSpec l L = some b) : b ≠ ∅ := by
  unfold labelBucketSpec at h
  by_cases he : ((l.filter (fun p => L ∈ p.2.labels)).map Prod.fst).toFinset = ∅ <;>
    simp [he] at h
  rw [← h]
  exact he

theorem typeBucketSpec_ne_empty (l : List (Nat × RelationshipEntry)) (T : String)
    (b : Finset Nat) (h : typeBucketSpec l T = some b) : b ≠ ∅ := by
  unfold typeBucketSpec at h
  by_cases he : ((l.filter (fun p => p.2.rtype = T)).map Prod.fst).toFinset = ∅ <;>
    simp [he] at h
  rw [← h]
  exact he

theorem nodeBucketSpec_ne_empty (l : List (Nat × RelationshipEntry)) (N : Nat)
    (b : Finset (Nat × Int)) (h : nodeBucketSpec l N = some b) : b ≠ ∅ := by
  unfold nodeBucketSpec at h
  by_cases he : (l.flatMap (fun p => relPairsAt p.1 p.2.nodes N)).toFinset = ∅ <;>
    simp [he] at h
  rw [← h]
  exact he

theorem mem_labelBucketList (l : List (Nat × NodeEntry)) (L : String) (x : Nat) :
    x ∈ ((l.filter (fun p => L ∈ p.2.labels)).map Prod.fst).toFinset ↔
      ∃ e, (x, e) ∈ l ∧ L ∈ e.labels := by
  rw [List.mem_toFinset, List.mem_map]
  constructor
  · rintro ⟨p, hp, rfl⟩
    obtain ⟨hmem2, hL⟩ := List.mem_filter.mp hp
    exact ⟨p.2, by simpa using hmem2, by simpa using hL⟩
  · rintro ⟨e, hmem2, hL⟩
    exact ⟨(x, e), List.mem_filter.mpr ⟨hmem2, by simpa using hL⟩, rfl⟩

theorem mem_labelBucketSpec (l : List (Nat × NodeEntry)) (L : String) (x : Nat) :
    x ∈ (labelBucketSpec l L).getD ∅ ↔ ∃ e, (x, e) ∈ l ∧ L ∈ e.labels := by
  unfold labelBucketSpec
  by_cases he : ((l.filter (fun p => L ∈ p.2.labels)).map Prod.fst).toFinset = ∅
  · simp only [he, if_pos rfl, Option.getD_none]
    constructor
    · intro hx
      exact absurd hx (by simp)
    · intro hx
      have h2 := (mem_labelBucketList l L x).mpr hx
      rw [he] at h2
      exact absurd h2 (by simp)
  · simp only [if_neg he, Option.getD_some]
    exact mem_labelBucketList l L x

theorem mem_typeBucketSpec_keys (l : List (Nat × RelationshipEntry)) (T : String) (x : Nat)
    (h : x ∈ (typeBucketSpec l T).getD ∅) : x ∈ dkeys l := by
  unfold typeBucketSpec at h
  by_cases he : ((l.filter (fun p => p.2.rtype = T)).map Prod.fst).toFinset = ∅
  · rw [he] at h
    simp at h
  · simp only [if_neg he, Option.getD_some] at h
    rw [List.mem_toFinset, List.mem_map] at h
    obtain ⟨p, hp, he2⟩ := h
    rw [← he2]
    exact List.mem_map_of_mem _ (List.mem_filter.mp hp).1

theorem mem_nodeBucketSpec_keys (l : List (Nat × RelationshipEntry)) (N : Nat)
    (x : Nat × Int) (h : x ∈ (nodeBucketSpec l N).getD ∅) : x.1 ∈ dkeys l := by
  unfold nodeBucketSpec at h
  by_cases he : (l.flatMap (fun p => relPairsAt p.1 p.2.nodes N)).toFinset = ∅
  · rw [he] at h
    simp at h
  · simp only [if_neg he, Option.getD_some] at h
    rw [List.mem_toFinset, List.mem_flatMap] at h
    obtain ⟨p, hp, hx⟩ := h
    unfold relPairsAt at hx
    obtain ⟨q, hq0, hq⟩ := List.mem_filterMap.mp hx
    by_cases hqn : q.2 = N
    · rw [if_pos hqn] at hq
      have he3 : x.1 = p.1 := by
        cases hq
        rfl
      rw [he3]
      exact List.mem_map_of_mem _ hp
    · rw [if_neg hqn] at hq
      cases hq

end SpecLemmas

/-! ## Lemmas: the build functions compute the specs -/

section BuildLemmas

theorem dlookup_buildNodesByLabel_aux (ns : List (Nat × NodeEntry))
    (d : List (String × Finset Nat)) (L : String) :
    dlookup (ns.foldl (fun d0 p =>
        (p.2.labels.sort (· ≤ ·)).foldl (fun d2 lb => dsetAdd d2 lb p.1) d0) d) L =
      match labelBucketSpec ns L with
      | none => dlookup d L
      | some b => some (((dlookup d L).getD ∅) ∪ b) := by
  induction ns generalizing d with
  | nil => simp [labelBucketSpec]
  | cons p t ih =>
    simp only [List.foldl_cons]
    rw [ih]
    have hsp : labelBucketSpec (p :: t) L =
        obUnion (labelBucketSpec [p] L) (labelBucketSpec t L) := by
      have : p :: t = [p] ++ t := rfl
      rw [this, labelBucketSpec_append]
    have hsingle : labelBucketSpec [p] L = if L ∈ p.2.labels then some {p.1} else none :=
      labelBucketSpec_single p.1 p.2 L
    have hinner := dlookup_foldl_dsetAdd_list (p.2.labels.sort (· ≤ ·)) d p.1 L
    rw [hsp, hsingle]
    by_cases hL : L ∈ p.2.labels
    · have hmem : L ∈ p.2.labels.sort (· ≤ ·) := by
        rw [Finset.mem_sort]
        exact hL
      rw [if_pos hL]
      cases hst : labelBucketSpec t L with
      | none =>
        simp only [obUnion]
        rw [hinner, if_pos hmem]
        congr 1
        ext x
        simp [Finset.mem_insert, or_comm]
      | some c =>
        simp only [obUnion]
        rw [hinner, if_pos hmem]
        simp only [Option.getD_some]
        congr 1
        ext x
        simp [Finset.mem_insert]
        tauto
    · have hmem : L ∉ p.2.labels.sort (· ≤ ·) := by
        rw [Finset.mem_sort]
        exact hL
      rw [if_neg hL]
      cases hst : labelBucketSpec t L with
      | none =>
        simp only [obUnion]
        rw [hinner, if_neg hmem]
      | some c =>
        simp only [obUnion]
        rw [hinner, if_neg hmem]

theorem dlookup_buildNodesByLabel (ns : List (Nat × NodeEntry)) (L : String) :
    dlookup (buildNodesByLabel ns) L = labelBucketSpec ns L := by
  unfold buildNodesByLabel
  rw [dlookup_buildNodesByLabel_aux]
  cases h : labelBucketSpec ns L with
  | none => simp
  | some b => simp

theorem dlookup_buildRelationshipsByType_aux (rs : List (Nat × RelationshipEntry))
    (d : List (String × Finset Nat)) (T : String) :
    dlookup (rs.foldl (fun d0 p => dsetAdd d0 p.2.rtype p.1) d) T =
      match typeBucketSpec rs T with
      | none => dlookup d T
      | some b => some (((dlookup d T).getD ∅) ∪ b) := by
  induction rs generalizing d with
  | nil => simp [typeBucketSpec]
  | cons p t ih =>
    simp only [List.foldl_cons]
    rw [ih]
    have hsp : typeBucketSpec (p :: t) T =
        obUnion (typeBucketSpec [p] T) (typeBucketSpec t T) := by
      have : p :: t = [p] ++ t := rfl
      rw [this, typeBucketSpec_append]
    have hsingle : typeBucketSpec [p] T = if p.2.rtype = T then some {p.1} else none :=
      typeBucketSpec_single p.1 p.2 T
    have hstep := dlookup_dsetAdd d p.2.rtype p.1 T
    rw [hsp, hsingle]
    by_cases hT : p.2.rtype = T
    · rw [if_pos hT]
      cases hst : typeBucketSpec t T with
      | none =>
        simp only [obUnion]
        rw [hstep, if_pos hT, hT]
        congr 1
        ext x
        simp [Finset.mem_insert, or_comm]
      | some c =>
        simp only [obUnion]
        rw [hstep, if_pos hT, hT]
        simp only [Option.getD_some]
        congr 1
        ext x
        simp [Finset.mem_insert]
        tauto
    · rw [if_neg hT]
      cases hst : typeBucketSpec t T with
      | none =>
        simp only [obUnion]
        rw [hstep, if_neg hT]
      | some c =>
        simp only [obUnion]
        rw [hstep, if_neg hT]

theorem dlookup_buildRelationshipsByType (rs : List (Nat × RelationshipEntry)) (T : String) :
    dlookup (buildRelationshipsByType rs) T = typeBucketSpec rs T := by
  unfold buildRelationshipsByType
  rw [dlookup_buildRelationshipsByType_aux]
  cases h : typeBucketSpec rs T with
  | none => simp
  | some b => simp

theorem dlookup_buildRelationshipsByNode_aux (rs : List (Nat × RelationshipEntry))
    (d : List (Nat × Finset (Nat × Int))) (N : Nat) :
    dlookup (rs.foldl (fun d0 p => (enumerateNodes p.2.nodes).foldl
        (fun d2 q => dsetAdd d2 q.2 (p.1, q.1)) d0) d) N =
      match nodeBucketSpec rs N with
      | none => dlookup d N
      | some b => some (((dlookup d N).getD ∅) ∪ b) := by
  induction rs generalizing d with
  | nil => simp [nodeBucketSpec]
  | cons p t ih =>
    simp only [List.foldl_cons]
    rw [ih]
    have hsp : nodeBucketSpec (p :: t) N =
        obUnion (nodeBucketSpec [p] N) (nodeBucketSpec t N) := by
      have : p :: t = [p] ++ t := rfl
      rw [this, nodeBucketSpec_append]
    have hsingle := nodeBucketSpec_single p.1 p.2 N
    have hinner := dlookup_foldl_dsetAdd_pairs (enumerateNodes p.2.nodes) d p.1 N
    have hrel : (List.filterMap (fun q => if q.2 = N then some (p.1, q.1) else none)
        (enumerateNodes p.2.nodes)) = relPairsAt p.1 p.2.nodes N := rfl
    rw [hrel] at hinner
    rw [hsp, hsingle]
    by_cases hc : (relPairsAt p.1 p.2.nodes N).toFinset = ∅
    · rw [if_pos hc]
      cases hst : nodeBucketSpec t N with
      | none =>
        simp only [obUnion]
        rw [hinner, if_pos hc]
      | some c =>
        simp only [obUnion]
        rw [hinner, if_pos hc]
    · rw [if_neg hc]
      cases hst : nodeBucketSpec t N with
      | none =>
        simp only [obUnion]
        rw [hinner, if_neg hc]
      | some c =>
        simp only [obUnion]
        rw [hinner, if_neg hc]
        simp only [Option.getD_some]
        congr 1
        rw [Finset.union_assoc]

theorem dlookup_buildRelationshipsByNode (rs : List (Nat × RelationshipEntry)) (N : Nat) :
    dlookup (buildRelationshipsByNode rs) N = nodeBucketSpec rs N := by
  unfold buildRelationshipsByNode
  rw [dlookup_buildRelationshipsByNode_aux]
  cases h : nodeBucketSpec rs N with
  | none => simp
  | some b => simp

theorem mkGraphStore_matches (ns : List (Nat × NodeEntry))
    (rs : List (Nat × RelationshipEntry)) : (mkGraphStore ns rs).Matches := by
  refine ⟨fun L => ?_, fun T => ?_, fun N => ?_⟩
  · exact dlookup_buildNodesByLabel ns L
  · exact dlookup_buildRelationshipsByType rs T
  · exact dlookup_buildRelationshipsByNode rs N

end BuildLemmas

/-! ## Lemmas: mutation operations preserve validity -/

section PreservationLemmas

@[simp] theorem toStore_nodes (m : MutableGraphStore) : m.toStore.nodes = m.nodes := rfl

@[simp] theorem toStore_relationships (m : MutableGraphStore) :
    m.toStore.relationships = m.relationships := rfl

@[simp] theorem toStore_nodes_by_label (m : MutableGraphStore) :
    m.toStore.nodes_by_label = m.nodes_by_label := rfl

@[simp] theorem toStore_relationships_by_type (m : MutableGraphStore) :
    m.toStore.relationships_by_type = m.relationships_by_type := rfl

@[simp] theorem toStore_relationships_by_node (m : MutableGraphStore) :
    m.toStore.relationships_by_node = m.relationships_by_node := rfl

theorem nodup_mem_dlookup {κ β : Type} [DecidableEq κ] (l : List (κ × β))
    (hn : (dkeys l).Nodup) (p : κ × β) (hmem : p ∈ l) : dlookup l p.1 = some p.2 := by
  induction l with
  | nil => cases hmem
  | cons q t ih =>
    have h1 : q.1 ∉ dkeys t := (List.nodup_cons.mp hn).1
    have h2 : (dkeys t).Nodup := (List.nodup_cons.mp hn).2
    rcases List.mem_cons.mp hmem with e | e
    · subst e
      simp [dlookup]
    · have hne : ¬ q.1 = p.1 := by
        intro he
        apply h1
        rw [he, mem_dkeys, ih h2 e]
        simp
      simp [dlookup, hne, ih h2 e]

theorem erase_singleton_union {γ : Type} [DecidableEq γ] (c : Finset γ) (a : γ)
    (h : a ∉ c) : (({a} : Finset γ) ∪ c).erase a = c := by
  ext x
  simp only [Finset.mem_erase, Finset.mem_union, Finset.mem_singleton]
  constructor
  · rintro ⟨hne, he | hc⟩
    · exact absurd he hne
    · exact hc
  · intro hc
    exact ⟨fun e => h (e ▸ hc), Or.inr hc⟩

theorem sdiff_union_left_of_disjoint {γ : Type} [DecidableEq γ] (S c : Finset γ)
    (h : ∀ x ∈ c, x ∉ S) : (S ∪ c) \ S = c := by
  ext x
  simp only [Finset.mem_sdiff, Finset.mem_union]
  constructor
  · rintro ⟨he | hc, hns⟩
    · exact absurd he hns
    · exact hc
  · intro hc
    exact ⟨Or.inr hc, h x hc⟩

theorem mem_relPairsAt_fst (rk : Nat) (nodes : List Nat) (N : Nat) (x : Nat × Int)
    (h : x ∈ (relPairsAt rk nodes N).toFinset) : x.1 = rk := by
  rw [List.mem_toFinset] at h
  unfold relPairsAt at h
  obtain ⟨q, _, hq⟩ := List.mem_filterMap.mp h
  by_cases hqn : q.2 = N
  · rw [if_pos hqn] at hq
    cases hq
    rfl
  · rw [if_neg hqn] at hq
    cases hq

theorem removeRelOne_valid (m : MutableGraphStore) (h : m.Valid) (rk : Nat) :
    (removeRelOne m rk).Valid := by
  obtain ⟨⟨hL, hT, hN⟩, hnn, hnr, hbn, hbr⟩ := h
  simp only [toStore_nodes, toStore_relationships, toStore_nodes_by_label,
    toStore_relationships_by_type, toStore_relationships_by_node] at hL hT hN
  unfold removeRelOne
  cases hrel : dlookup m.relationships rk with
  | none => exact ⟨⟨hL, hT, hN⟩, hnn, hnr, hbn, hbr⟩
  | some e =>
    have hperm : m.relationships.Perm ((rk, e) :: derase m.relationships rk) :=
      perm_cons_derase _ _ _ hrel hnr
    have hkeyrest : rk ∉ dkeys (derase m.relationships rk) := by
      rw [mem_dkeys, dlookup_derase]
      simp
    refine ⟨⟨?_, ?_, ?_⟩, ?_, ?_, ?_, ?_⟩
    · intro L
      exact hL L
    · intro T
      show dlookup (ddiscardDrop m.relationships_by_type e.rtype rk) T =
        typeBucketSpec (derase m.relationships rk) T
      have hdecomp : typeBucketSpec m.relationships T =
          obUnion (typeBucketSpec [(rk, e)] T)
            (typeBucketSpec (derase m.relationships rk) T) := by
        rw [typeBucketSpec_perm _ _ hperm T]
        exact typeBucketSpec_append [(rk, e)] _ T
      rw [dlookup_ddiscardDrop]
      by_cases hT2 : e.rtype = T
      · subst hT2
        rw [if_pos rfl]
        rw [show dlookup m.relationships_by_type e.rtype =
          typeBucketSpec m.relationships e.rtype from hT e.rtype]
        rw [hdecomp, typeBucketSpec_single, if_pos rfl]
        cases hrest2 : typeBucketSpec (derase m.relationships rk) e.rtype with
        | none =>
          simp only [obUnion]
          simp [Finset.erase_singleton]
        | some c =>
          have hrkc : rk ∉ c := by
            intro hc
            exact hkeyrest (mem_typeBucketSpec_keys _ _ rk (by rw [hrest2]; simpa))
          have hcne : c ≠ ∅ := typeBucketSpec_ne_empty _ _ _ hrest2
          simp only [obUnion]
          rw [erase_singleton_union c rk hrkc]
          simp [hcne]
      · rw [if_neg hT2]
        rw [hT T, hdecomp, typeBucketSpec_single, if_neg hT2]
        simp [obUnion]
    · intro N
      show dlookup ((enumerateNodes e.nodes).foldl
          (fun d q => ddiscardDrop d q.2 (rk, q.1)) m.relationships_by_node) N =
        nodeBucketSpec (derase m.relationships rk) N
      have hne : ∀ b, dlookup m.relationships_by_node N = some b → b ≠ ∅ := by
        intro b hb
        rw [hN N] at hb
        exact nodeBucketSpec_ne_empty _ _ _ hb
      have hdecomp : nodeBucketSpec m.relationships N =
          obUnion (nodeBucketSpec [(rk, e)] N)
            (nodeBucketSpec (derase m.relationships rk) N) := by
        rw [nodeBucketSpec_perm _ _ hperm N]
        exact nodeBucketSpec_append [(rk, e)] _ N
      rw [dlookup_foldl_ddiscardDrop_pairs _ _ _ _ hne]
      rw [show (List.filterMap (fun q => if q.2 = N then some (rk, q.1) else none)
        (enumerateNodes e.nodes)) = relPairsAt rk e.nodes N from rfl]
      rw [hN N, hdecomp, nodeBucketSpec_single]
      by_cases hS : (relPairsAt rk e.nodes N).toFinset = ∅
      · rw [if_pos hS]
        cases hrest2 : nodeBucketSpec (derase m.relationships rk) N with
        | none => simp [obUnion]
        | some c =>
          have hcne : c ≠ ∅ := nodeBucketSpec_ne_empty _ _ _ hrest2
          simp only [obUnion]
          rw [hS]
          simp [hcne]
      · rw [if_neg hS]
        cases hrest2 : nodeBucketSpec (derase m.relationships rk) N with
        | none =>
          simp only [obUnion]
          simp
        | some c =>
          have hdisj : ∀ x ∈ c, x ∉ (relPairsAt rk e.nodes N).toFinset := by
            intro x hc hx
            have hfst : x.1 = rk := mem_relPairsAt_fst rk e.nodes N x hx
            have hmem2 : x.1 ∈ dkeys (derase m.relationships rk) :=
              mem_nodeBucketSpec_keys _ _ x (by rw [hrest2]; simpa)
            rw [hfst] at hmem2
            exact hkeyrest hmem2
          have hcne : c ≠ ∅ := nodeBucketSpec_ne_empty _ _ _ hrest2
          simp only [obUnion]
          rw [sdiff_union_left_of_disjoint _ c hdisj]
          simp [hcne]
    · exact hnn
    · exact nodup_dkeys_derase _ _ hnr
    · exact hbn
    · intro k hk
      exact hbr k ((mem_dkeys_derase _ _ _).mp hk).2

end PreservationLemmas

section PreservationLemmas2

theorem remove_relationships_valid (m : MutableGraphStore) (h : m.Valid) (rks : List Nat) :
    (remove_relationships m rks).Valid := by
  induction rks generalizing m with
  | nil => exact h
  | cons k t ih =>
    show (List.foldl removeRelOne m (k :: t)).Valid
    simp only [List.foldl_cons]
    exact ih _ (removeRelOne_valid m h k)

theorem removeNodeOne_valid (m : MutableGraphStore) (h : m.Valid) (nk : Nat) :
    (removeNodeOne m nk).Valid := by
  obtain ⟨⟨hL, hT, hN⟩, hnn, hnr, hbn, hbr⟩ := h
  simp only [toStore_nodes, toStore_relationships, toStore_nodes_by_label,
    toStore_relationships_by_type, toStore_relationships_by_node] at hL hT hN
  unfold removeNodeOne
  cases hn : dlookup m.nodes nk with
  | none => exact ⟨⟨hL, hT, hN⟩, hnn, hnr, hbn, hbr⟩
  | some e =>
    have hperm : m.nodes.Perm ((nk, e) :: derase m.nodes nk) :=
      perm_cons_derase _ _ _ hn hnn
    have hkeyrest : nk ∉ dkeys (derase m.nodes nk) := by
      rw [mem_dkeys, dlookup_derase]
      simp
    have hv2 : ({ m with
        nodes := derase m.nodes nk,
        nodes_by_label := (e.labels.sort (· ≤ ·)).foldl
          (fun d lb => ddiscardDrop d lb nk) m.nodes_by_label } :
          MutableGraphStore).Valid := by
      refine ⟨⟨?_, ?_, ?_⟩, ?_, ?_, ?_, ?_⟩
      · intro L
        show dlookup ((e.labels.sort (· ≤ ·)).foldl
            (fun d lb => ddiscardDrop d lb nk) m.nodes_by_label) L =
          labelBucketSpec (derase m.nodes nk) L
        have hne : ∀ b, dlookup m.nodes_by_label L = some b → b ≠ ∅ := by
          intro b hb
          rw [hL L] at hb
          exact labelBucketSpec_ne_empty _ _ _ hb
        have hdecomp : labelBucketSpec m.nodes L =
            obUnion (labelBucketSpec [(nk, e)] L)
              (labelBucketSpec (derase m.nodes nk) L) := by
          rw [labelBucketSpec_perm _ _ hperm L]
          exact labelBucketSpec_append [(nk, e)] _ L
        rw [dlookup_foldl_ddiscardDrop_list _ _ _ _ hne]
        rw [hL L, hdecomp, labelBucketSpec_single]
        by_cases hLl : L ∈ e.labels
        · have hmem : L ∈ e.labels.sort (· ≤ ·) := by
            rw [Finset.mem_sort]
            exact hLl
          rw [if_pos hLl]
          cases hrest2 : labelBucketSpec (derase m.nodes nk) L with
          | none =>
            simp only [obUnion]
            simp [hmem, hLl, Finset.erase_singleton]
          | some c =>
            have hnkc : nk ∉ c := by
              intro hc
              apply hkeyrest
              have := (mem_labelBucketSpec (derase m.nodes nk) L nk).mp
                (by rw [hrest2]; simpa)
              obtain ⟨e2, hmem2, _⟩ := this
              rw [mem_dkeys, nodup_mem_dlookup _ (nodup_dkeys_derase _ _ hnn) _ hmem2]
              simp
            have hcne : c ≠ ∅ := labelBucketSpec_ne_empty _ _ _ hrest2
            simp only [obUnion]
            rw [erase_singleton_union c nk hnkc]
            simp [hmem, hLl, hcne]
        · have hmem : L ∉ e.labels.sort (· ≤ ·) := by
            rw [Finset.mem_sort]
            exact hLl
          rw [if_neg hLl]
          cases hrest2 : labelBucketSpec (derase m.nodes nk) L with
          | none => simp [obUnion]
          | some c => simp [obUnion, hmem, hLl]
      · intro T
        exact hT T
      · intro N
        exact hN N
      · exact nodup_dkeys_derase _ _ hnn
      · exact hnr
      · intro k hk
        exact hbn k ((mem_dkeys_derase _ _ _).mp hk).2
      · exact hbr
    cases hb : dlookup m.relationships_by_node nk with
    | none =>
      simpa [hb] using hv2
    | some b =>
      have := remove_relationships_valid _ hv2 ((b.image Prod.fst).sort (· ≤ ·))
      simpa [hb] using this

theorem remove_nodes_valid (m : MutableGraphStore) (h : m.Valid) (nks : List Nat) :
    (remove_nodes m nks).Valid := by
  induction nks generalizing m with
  | nil => exact h
  | cons k t ih =>
    show (List.foldl removeNodeOne m (k :: t)).Valid
    simp only [List.foldl_cons]
    exact ih _ (removeNodeOne_valid m h k)

end PreservationLemmas2

section PreservationLemmas3

theorem add_relationships_valid (m : MutableGraphStore)
    (entries : List (String × List Nat × List (String × PyValue))) (h : m.Valid) :
    (add_relationships m entries).1.Valid := by
  induction entries generalizing m with
  | nil => exact h
  | cons entry rest ih =>
    obtain ⟨t, nks, props⟩ := entry
    obtain ⟨⟨hL, hT, hN⟩, hnn, hnr, hbn, hbr⟩ := h
    simp only [toStore_nodes, toStore_relationships, toStore_nodes_by_label,
      toStore_relationships_by_type, toStore_relationships_by_node] at hL hT hN
    set rk := m.next_relationship_key with hrk
    have hfresh : rk ∉ dkeys m.relationships := by
      intro hmem
      exact absurd (hbr rk hmem) (by simp)
    have hins : dinsert m.relationships rk ⟨t, nks, props⟩ =
        m.relationships ++ [(rk, ⟨t, nks, props⟩)] := dinsert_fresh _ _ _ hfresh
    have hm1 : ({ m with
        relationships := dinsert m.relationships rk ⟨t, nks, props⟩,
        relationships_by_type := dsetAdd m.relationships_by_type t rk,
        relationships_by_node := (enumerateNodes nks).foldl
          (fun d q => dsetAdd d q.2 (rk, q.1)) m.relationships_by_node,
        next_relationship_key := m.next_relationship_key + 1 } :
          MutableGraphStore).Valid := by
      refine ⟨⟨?_, ?_, ?_⟩, ?_, ?_, ?_, ?_⟩
      · intro L
        exact hL L
      · intro T
        show dlookup (dsetAdd m.relationships_by_type t rk) T =
          typeBucketSpec (dinsert m.relationships rk ⟨t, nks, props⟩) T
        rw [hins, typeBucketSpec_append, typeBucketSpec_single]
        rw [dlookup_dsetAdd]
        by_cases hT2 : t = T
        · subst hT2
          rw [if_pos rfl, if_pos rfl, hT t]
          cases hsp : typeBucketSpec m.relationships t with
          | none => simp [obUnion]
          | some b =>
            simp only [obUnion, Option.getD_some]
            congr 1
            ext x
            simp [Finset.mem_insert]
            tauto
        · rw [if_neg hT2, if_neg hT2, hT T]
          cases hsp : typeBucketSpec m.relationships T with
          | none => simp [obUnion]
          | some b => simp [obUnion]
      · intro N
        show dlookup ((enumerateNodes nks).foldl
            (fun d q => dsetAdd d q.2 (rk, q.1)) m.relationships_by_node) N =
          nodeBucketSpec (dinsert m.relationships rk ⟨t, nks, props⟩) N
        rw [hins, nodeBucketSpec_append, nodeBucketSpec_single]
        rw [dlookup_foldl_dsetAdd_pairs]
        rw [show (List.filterMap (fun q => if q.2 = N then some (rk, q.1) else none)
          (enumerateNodes nks)) =
            relPairsAt rk (RelationshipEntry.mk t nks props).nodes N from rfl]
        by_cases hS : (relPairsAt rk (RelationshipEntry.mk t nks props).nodes N).toFinset = ∅
        · rw [if_pos hS, if_pos hS, hN N]
          cases hsp : nodeBucketSpec m.relationships N with
          | none => simp [obUnion]
          | some b => simp [obUnion]
        · rw [if_neg hS, if_neg hS, hN N]
          cases hsp : nodeBucketSpec m.relationships N with
          | none => simp [obUnion]
          | some b => simp [obUnion]
      · exact hnn
      · rw [hins, dkeys, List.map_append]
        rw [List.nodup_append]
        refine ⟨hnr, by simp, ?_⟩
        intro a ha hb
        simp at hb
        exact hfresh (hb ▸ ha)
      · exact hbn
      · intro k hk
        show k < m.next_relationship_key + 1
        rcases (mem_dkeys_dinsert _ _ _ _).mp hk with e | e
        · rw [e, hrk]
          omega
        · have h2 := hbr k e
          rw [hrk] at h2
          omega
    exact ih _ hm1

end PreservationLemmas3

section PreservationLemmas4

theorem dkeys_append {κ β : Type} (l1 l2 : List (κ × β)) :
    dkeys (l1 ++ l2) = dkeys l1 ++ dkeys l2 := by
  simp [dkeys]

theorem foldl_dinsert_append {κ β : Type} [DecidableEq κ] (acc base : List (κ × β))
    (h : (dkeys (base ++ acc)).Nodup) :
    acc.foldl (fun d p => dinsert d p.1 p.2) base = base ++ acc := by
  induction acc generalizing base with
  | nil => simp
  | cons p t ih =>
    rw [dkeys_append] at h
    have hp : p.1 ∉ dkeys base := by
      intro hmem
      rw [List.nodup_append] at h
      exact h.2.2 hmem (by simp [dkeys])
    have h1 : dinsert base p.1 p.2 = base ++ [p] := dinsert_fresh _ _ _ hp
    simp only [List.foldl_cons]
    rw [h1]
    rw [ih (base ++ [p]) (by
      rw [List.append_assoc]
      rw [dkeys_append]
      rw [show ([p] ++ t : List (κ × β)) = p :: t from rfl]
      exact dkeys_append _ _ ▸ h)]
    simp

theorem nodup_dkeys_foldl_dsetAdd {κ α : Type} [DecidableEq κ] [DecidableEq α]
    (ls : List κ) (d : List (κ × Finset α)) (key : α)
    (h : (dkeys d).Nodup) :
    (dkeys (ls.foldl (fun d2 lb => dsetAdd d2 lb key) d)).Nodup := by
  induction ls generalizing d with
  | nil => exact h
  | cons lb t ih =>
    simp only [List.foldl_cons]
    exact ih _ (nodup_dkeys_dinsert _ _ _ h)

theorem foldl_dsetUnion_noop {κ α : Type} [DecidableEq κ] [DecidableEq α]
    (l : List (κ × Finset α)) (idx : List (κ × Finset α))
    (hsub : ∀ p ∈ l, ∃ c, dlookup idx p.1 = some c ∧ p.2 ⊆ c) :
    l.foldl (fun d (p : κ × Finset α) => dsetUnion d p.1 p.2) idx = idx := by
  induction l with
  | nil => rfl
  | cons p t ih =>
    obtain ⟨c, hc, hsubc⟩ := hsub p (by simp)
    have h1 : dsetUnion idx p.1 p.2 = idx := by
      unfold dsetUnion
      rw [hc]
      simp only [Option.getD_some]
      rw [Finset.union_eq_left.mpr hsubc]
      exact dinsert_lookup_self _ _ _ hc
    simp only [List.foldl_cons]
    rw [h1]
    exact ih (fun q hq => hsub q (by simp [hq]))

theorem addNodes_loop_untouched
    (entries : List (Finset String × List (String × PyValue))) (st : AddNodesState) :
    (entries.foldl addNodesStep st).m.nodes = st.m.nodes ∧
    (entries.foldl addNodesStep st).m.relationships = st.m.relationships ∧
    (entries.foldl addNodesStep st).m.relationships_by_type = st.m.relationships_by_type ∧
    (entries.foldl addNodesStep st).m.relationships_by_node = st.m.relationships_by_node ∧
    (entries.foldl addNodesStep st).m.next_relationship_key = st.m.next_relationship_key := by
  induction entries generalizing st with
  | nil => exact ⟨rfl, rfl, rfl, rfl, rfl⟩
  | cons entry rest ih =>
    simp only [List.foldl_cons]
    exact ih (addNodesStep st entry)

theorem addNodes_loop_inv
    (entries : List (Finset String × List (String × PyValue))) (st : AddNodesState)
    (h1 : ∀ L, dlookup st.m.nodes_by_label L = labelBucketSpec (st.m.nodes ++ st.acc) L)
    (h2 : ∀ L, dlookup st.localLabels L = labelBucketSpec st.acc L)
    (h3 : (dkeys (st.m.nodes ++ st.acc)).Nodup)
    (h4 : ∀ k ∈ dkeys (st.m.nodes ++ st.acc), k < st.m.next_node_key)
    (h5 : (dkeys st.localLabels).Nodup) :
    (∀ L, dlookup (entries.foldl addNodesStep st).m.nodes_by_label L =
      labelBucketSpec ((entries.foldl addNodesStep st).m.nodes ++
        (entries.foldl addNodesStep st).acc) L) ∧
    (∀ L, dlookup (entries.foldl addNodesStep st).localLabels L =
      labelBucketSpec (entries.foldl addNodesStep st).acc L) ∧
    (dkeys ((entries.foldl addNodesStep st).m.nodes ++
      (entries.foldl addNodesStep st).acc)).Nodup ∧
    (∀ k ∈ dkeys ((entries.foldl addNodesStep st).m.nodes ++
      (entries.foldl addNodesStep st).acc),
        k < (entries.foldl addNodesStep st).m.next_node_key) ∧
    (dkeys (entries.foldl addNodesStep st).localLabels).Nodup := by
  induction entries generalizing st with
  | nil => exact ⟨h1, h2, h3, h4, h5⟩
  | cons entry rest ih =>
    simp only [List.foldl_cons]
    set key := st.m.next_node_key with hkey
    have hkacc : key ∉ dkeys st.acc := by
      intro hmem
      have := h4 key (by rw [dkeys_append]; simp [hmem])
      omega
    have hacc1 : (addNodesStep st entry).acc = st.acc ++ [(key, ⟨entry.1, entry.2⟩)] := by
      show dinsert st.acc key ⟨entry.1, entry.2⟩ = _
      exact dinsert_fresh _ _ _ hkacc
    have hindex : ∀ (d : List (String × Finset Nat)) (base : List (Nat × NodeEntry)),
        (∀ L, dlookup d L = labelBucketSpec base L) →
        ∀ L, dlookup ((entry.1.sort (· ≤ ·)).foldl (fun d2 lb => dsetAdd d2 lb key) d) L =
          labelBucketSpec (base ++ [(key, ⟨entry.1, entry.2⟩)]) L := by
      intro d base hbase L
      rw [dlookup_foldl_dsetAdd_list, labelBucketSpec_append, labelBucketSpec_single,
        hbase L]
      by_cases hL : L ∈ entry.1
      · have hmem : L ∈ entry.1.sort (· ≤ ·) := by
          rw [Finset.mem_sort]
          exact hL
        rw [if_pos hmem]
        show _ = obUnion (labelBucketSpec base L)
          (if L ∈ (NodeEntry.mk entry.1 entry.2).labels then some {key} else none)
        rw [if_pos hL]
        cases hsp : labelBucketSpec base L with
        | none => simp [obUnion]
        | some b =>
          simp only [obUnion, Option.getD_some]
          congr 1
          ext x
          simp [Finset.mem_insert]
          tauto
      · have hmem : L ∉ entry.1.sort (· ≤ ·) := by
          rw [Finset.mem_sort]
          exact hL
        rw [if_neg hmem]
        show _ = obUnion (labelBucketSpec base L)
          (if L ∈ (NodeEntry.mk entry.1 entry.2).labels then some {key} else none)
        rw [if_neg hL]
        cases hsp : labelBucketSpec base L <;> simp [obUnion]
    refine ih (addNodesStep st entry) ?_ ?_ ?_ ?_ ?_
    · intro L
      have := hindex st.m.nodes_by_label (st.m.nodes ++ st.acc) h1 L
      rw [show (addNodesStep st entry).m.nodes_by_label =
        (entry.1.sort (· ≤ ·)).foldl (fun d2 lb => dsetAdd d2 lb key)
          st.m.nodes_by_label from rfl]
      rw [this]
      rw [show (addNodesStep st entry).m.nodes = st.m.nodes from rfl, hacc1]
      rw [← List.append_assoc]
    · intro L
      have := hindex st.localLabels st.acc h2 L
      rw [show (addNodesStep st entry).localLabels =
        (entry.1.sort (· ≤ ·)).foldl (fun d2 lb => dsetAdd d2 lb key)
          st.localLabels from rfl]
      rw [this, hacc1]
    · rw [show (addNodesStep st entry).m.nodes = st.m.nodes from rfl, hacc1,
        ← List.append_assoc, dkeys_append, List.nodup_append]
      refine ⟨h3, by simp [dkeys], ?_⟩
      intro a ha hb
      simp [dkeys] at hb
      rw [hb] at ha
      have h6 := h4 key ha
      omega
    · intro k hk
      rw [show (addNodesStep st entry).m.nodes = st.m.nodes from rfl, hacc1,
        ← List.append_assoc, dkeys_append] at hk
      rw [show (addNodesStep st entry).m.next_node_key = st.m.next_node_key + 1 from rfl]
      rcases List.mem_append.mp hk with e | e
      · have := h4 k e
        omega
      · simp [dkeys] at e
        omega
    · rw [show (addNodesStep st entry).localLabels =
        (entry.1.sort (· ≤ ·)).foldl (fun d2 lb => dsetAdd d2 lb key)
          st.localLabels from rfl]
      exact nodup_dkeys_foldl_dsetAdd _ _ _ h5


theorem add_nodes_valid (m : MutableGraphStore)
    (entries : List (Finset String × List (String × PyValue))) (h : m.Valid) :
    (add_nodes m entries).1.Valid := by
  obtain ⟨⟨hL, hT, hN⟩, hnn, hnr, hbn, hbr⟩ := h
  simp only [toStore_nodes, toStore_relationships, toStore_nodes_by_label,
    toStore_relationships_by_type, toStore_relationships_by_node] at hL hT hN
  obtain ⟨u1, u2, u3, u4, u5⟩ :=
    addNodes_loop_untouched entries ⟨m, [], [], []⟩
  obtain ⟨i1, i2, i3, i4, i5⟩ := addNodes_loop_inv entries ⟨m, [], [], []⟩
    (by intro L; simpa using hL L)
    (by intro L; simp [labelBucketSpec])
    (by simpa using hnn)
    (by intro k hk; exact hbn k (by simpa using hk))
    (by simp [dkeys])
  set st := entries.foldl addNodesStep ⟨m, [], [], []⟩ with hst
  have hnodes : st.acc.foldl (fun d (p : Nat × NodeEntry) => dinsert d p.1 p.2) st.m.nodes
      = st.m.nodes ++ st.acc := foldl_dinsert_append st.acc st.m.nodes i3
  have hsub : ∀ p ∈ st.localLabels, ∃ c,
      dlookup st.m.nodes_by_label p.1 = some c ∧ p.2 ⊆ c := by
    intro p hp
    have hlp : dlookup st.localLabels p.1 = some p.2 := nodup_mem_dlookup _ i5 p hp
    have hspec : labelBucketSpec st.acc p.1 = some p.2 := by
      rw [← i2 p.1]
      exact hlp
    have hidx := i1 p.1
    rw [labelBucketSpec_append, hspec] at hidx
    cases hb : labelBucketSpec st.m.nodes p.1 with
    | none =>
      rw [hb] at hidx
      exact ⟨p.2, by simpa [obUnion] using hidx, le_refl _⟩
    | some b =>
      rw [hb] at hidx
      exact ⟨b ∪ p.2, by simpa [obUnion] using hidx, Finset.subset_union_right⟩
  have hmerge : st.localLabels.foldl
      (fun d (p : String × Finset Nat) => dsetUnion d p.1 p.2) st.m.nodes_by_label
      = st.m.nodes_by_label := foldl_dsetUnion_noop _ _ hsub
  have hrec : (add_nodes m entries).1 = { st.m with nodes := st.m.nodes ++ st.acc } := by
    show ({ { (entries.foldl addNodesStep ⟨m, [], [], []⟩).m with
        nodes := (entries.foldl addNodesStep ⟨m, [], [], []⟩).acc.foldl
          (fun d (p : Nat × NodeEntry) => dinsert d p.1 p.2)
          (entries.foldl addNodesStep ⟨m, [], [], []⟩).m.nodes } with
      nodes_by_label := (entries.foldl addNodesStep ⟨m, [], [], []⟩).localLabels.foldl
        (fun d (p : String × Finset Nat) => dsetUnion d p.1 p.2)
        (entries.foldl addNodesStep ⟨m, [], [], []⟩).m.nodes_by_label } :
          MutableGraphStore) = _
    rw [← hst, hnodes, hmerge]
  rw [hrec]
  refine ⟨⟨?_, ?_, ?_⟩, ?_, ?_, ?_, ?_⟩
  · intro L
    exact i1 L
  · intro T
    show dlookup st.m.relationships_by_type T = typeBucketSpec st.m.relationships T
    rw [u2, u3]
    exact hT T
  · intro N
    show dlookup st.m.relationships_by_node N = nodeBucketSpec st.m.relationships N
    rw [u2, u4]
    exact hN N
  · exact i3
  · show (dkeys st.m.relationships).Nodup
    rw [u2]
    exact hnr
  · intro k hk
    exact i4 k hk
  · intro k hk
    show k < st.m.next_relationship_key
    rw [u2] at hk
    rw [u5]
    exact hbr k hk

end PreservationLemmas4

/-! ## Lemmas: operation-level validity and the rebuild bridge -/

section OpLemmas

theorem applyOp_valid (m : MutableGraphStore) (h : m.Valid) (op : MutOp) :
    (applyOp m op).Valid := by
  cases op with
  | addNodes es => exact add_nodes_valid m es h
  | removeNodes ks => exact remove_nodes_valid m h ks
  | addRelationships es => exact add_relationships_valid m es h
  | removeRelationships ks => exact remove_relationships_valid m h ks

theorem applyOps_valid (m : MutableGraphStore) (h : m.Valid) (ops : List MutOp) :
    (applyOps m ops).Valid := by
  induction ops generalizing m with
  | nil => exact h
  | cons op t ih =>
    show (List.foldl applyOp m (op :: t)).Valid
    simp only [List.foldl_cons]
    exact ih _ (applyOp_valid m h op)

theorem emptyMGS_valid : emptyMGS.Valid := by
  refine ⟨⟨?_, ?_, ?_⟩, ?_, ?_, ?_, ?_⟩
  · intro L
    simp [emptyMGS, MutableGraphStore.toStore, labelBucketSpec]
  · intro T
    simp [emptyMGS, MutableGraphStore.toStore, typeBucketSpec]
  · intro N
    simp [emptyMGS, MutableGraphStore.toStore, nodeBucketSpec]
  · simp [emptyMGS, dkeys]
  · simp [emptyMGS, dkeys]
  · intro k hk
    simp [emptyMGS, dkeys] at hk
  · intro k hk
    simp [emptyMGS, dkeys] at hk

theorem valid_matchesRebuild (m : MutableGraphStore) (h : m.Valid) :
    m.MatchesRebuild := by
  obtain ⟨⟨hL, hT, hN⟩, _, _, _, _⟩ := h
  simp only [toStore_nodes, toStore_relationships, toStore_nodes_by_label,
    toStore_relationships_by_type, toStore_relationships_by_node] at hL hT hN
  refine ⟨fun L => ?_, fun T => ?_, fun N => ?_⟩
  · rw [hL L, dlookup_buildNodesByLabel]
  · rw [hT T, dlookup_buildRelationshipsByType]
  · rw [hN N, dlookup_buildRelationshipsByNode]

end OpLemmas

/-! ## Lemmas: cascade removal kills relationships -/

section CascadeLemmas

theorem removeRelOne_rel_none (m : MutableGraphStore) (k rk : Nat)
    (h : dlookup m.relationships rk = none) :
    dlookup (removeRelOne m k).relationships rk = none := by
  unfold removeRelOne
  cases hrel : dlookup m.relationships k with
  | none => exact h
  | some e =>
    show dlookup (derase m.relationships k) rk = none
    rw [dlookup_derase]
    by_cases hk : k = rk <;> simp [hk, h]

theorem remove_relationships_rel_none (rks : List Nat) (m : MutableGraphStore) (rk : Nat)
    (h : dlookup m.relationships rk = none) :
    dlookup (remove_relationships m rks).relationships rk = none := by
  induction rks generalizing m with
  | nil => exact h
  | cons k t ih =>
    show dlookup ((List.foldl removeRelOne m (k :: t))).relationships rk = none
    simp only [List.foldl_cons]
    exact ih _ (removeRelOne_rel_none m k rk h)

theorem removeRelOne_rel_keeps_or_none (m : MutableGraphStore) (k rk : Nat) :
    dlookup (removeRelOne m k).relationships rk = none ∨
    dlookup (removeRelOne m k).relationships rk = dlookup m.relationships rk := by
  unfold removeRelOne
  cases hrel : dlookup m.relationships k with
  | none => exact Or.inr rfl
  | some e =>
    show dlookup (derase m.relationships k) rk = none ∨ _
    rw [dlookup_derase]
    by_cases hk : k = rk <;> simp [hk]

theorem remove_relationships_rel_keeps_or_none (rks : List Nat) (m : MutableGraphStore)
    (rk : Nat) :
    dlookup (remove_relationships m rks).relationships rk = none ∨
    dlookup (remove_relationships m rks).relationships rk = dlookup m.relationships rk := by
  induction rks generalizing m with
  | nil => exact Or.inr rfl
  | cons k t ih =>
    show dlookup ((List.foldl removeRelOne m (k :: t))).relationships rk = none ∨ _
    simp only [List.foldl_cons]
    rcases removeRelOne_rel_keeps_or_none m k rk with h | h
    · exact Or.inl (remove_relationships_rel_none t _ rk h)
    · rcases ih (removeRelOne m k) with h2 | h2
      · exact Or.inl h2
      · exact Or.inr (h2.trans h)

theorem removeRelOne_self_none (m : MutableGraphStore) (rk : Nat) :
    dlookup (removeRelOne m rk).relationships rk = none := by
  unfold removeRelOne
  cases hrel : dlookup m.relationships rk with
  | none => exact hrel
  | some e =>
    show dlookup (derase m.relationships rk) rk = none
    rw [dlookup_derase]
    simp

theorem remove_relationships_kills (rks : List Nat) (m : MutableGraphStore) (rk : Nat)
    (hk : rk ∈ rks) :
    dlookup (remove_relationships m rks).relationships rk = none := by
  induction rks generalizing m with
  | nil => cases hk
  | cons k t ih =>
    show dlookup ((List.foldl removeRelOne m (k :: t))).relationships rk = none
    simp only [List.foldl_cons]
    by_cases hkr : rk = k
    · subst hkr
      exact remove_relationships_rel_none t _ rk (removeRelOne_self_none m rk)
    · rcases List.mem_cons.mp hk with e | e
      · exact absurd e hkr
      · exact ih _ e

theorem remove_relationships_nodes_eq (rks : List Nat) (m : MutableGraphStore) :
    (remove_relationships m rks).nodes = m.nodes := by
  induction rks generalizing m with
  | nil => rfl
  | cons k t ih =>
    show (List.foldl removeRelOne m (k :: t)).nodes = m.nodes
    simp only [List.foldl_cons]
    have h2 : (removeRelOne m k).nodes = m.nodes := by
      unfold removeRelOne
      cases hrel : dlookup m.relationships k <;> rfl
    exact (ih (removeRelOne m k)).trans h2

theorem removeNodeOne_rel_none (m : MutableGraphStore) (nk rk : Nat)
    (h : dlookup m.relationships rk = none) :
    dlookup (removeNodeOne m nk).relationships rk = none := by
  unfold removeNodeOne
  cases hn : dlookup m.nodes nk with
  | none => exact h
  | some e =>
    cases hb : dlookup m.relationships_by_node nk with
    | none => simpa [hb] using h
    | some b =>
      have := remove_relationships_rel_none ((b.image Prod.fst).sort (· ≤ ·))
        { m with
          nodes := derase m.nodes nk,
          nodes_by_label := (e.labels.sort (· ≤ ·)).foldl
            (fun d lb => ddiscardDrop d lb nk) m.nodes_by_label } rk h
      simpa [hb] using this

theorem remove_nodes_rel_none (nks : List Nat) (m : MutableGraphStore) (rk : Nat)
    (h : dlookup m.relationships rk = none) :
    dlookup (remove_nodes m nks).relationships rk = none := by
  induction nks generalizing m with
  | nil => exact h
  | cons k t ih =>
    show dlookup ((List.foldl removeNodeOne m (k :: t))).relationships rk = none
    simp only [List.foldl_cons]
    exact ih _ (removeNodeOne_rel_none m k rk h)

theorem removeNodeOne_rel_keeps_or_none (m : MutableGraphStore) (nk rk : Nat) :
    dlookup (removeNodeOne m nk).relationships rk = none ∨
    dlookup (removeNodeOne m nk).relationships rk = dlookup m.relationships rk := by
  unfold removeNodeOne
  cases hn : dlookup m.nodes nk with
  | none => exact Or.inr rfl
  | some e =>
    cases hb : dlookup m.relationships_by_node nk with
    | none => simpa [hb] using Or.inr rfl
    | some b =>
      have := remove_relationships_rel_keeps_or_none ((b.image Prod.fst).sort (· ≤ ·))
        { m with
          nodes := derase m.nodes nk,
          nodes_by_label := (e.labels.sort (· ≤ ·)).foldl
            (fun d lb => ddiscardDrop d lb nk) m.nodes_by_label } rk
      simpa [hb] using this

theorem removeNodeOne_node_other (m : MutableGraphStore) (opk q : Nat) (hne : ¬ q = opk) :
    dlookup (removeNodeOne m opk).nodes q = dlookup m.nodes q := by
  have hne2 : ¬ opk = q := fun he => hne he.symm
  have h3 : dlookup (derase m.nodes opk) q = dlookup m.nodes q := by
    rw [dlookup_derase, if_neg hne2]
  unfold removeNodeOne
  cases hn : dlookup m.nodes opk with
  | none => rfl
  | some e =>
    cases hb : dlookup m.relationships_by_node opk with
    | none => simpa [hb] using h3
    | some b =>
      have h4 := remove_relationships_nodes_eq ((b.image Prod.fst).sort (· ≤ ·))
        { m with
          nodes := derase m.nodes opk,
          nodes_by_label := (e.labels.sort (· ≤ ·)).foldl
            (fun d lb => ddiscardDrop d lb opk) m.nodes_by_label }
      have h5 : dlookup (remove_relationships
          { m with
            nodes := derase m.nodes opk,
            nodes_by_label := (e.labels.sort (· ≤ ·)).foldl
              (fun d lb => ddiscardDrop d lb opk) m.nodes_by_label }
          ((b.image Prod.fst).sort (· ≤ ·))).nodes q = dlookup m.nodes q := by
        rw [h4]
        exact h3
      simpa [hb] using h5

theorem map_snd_enumerateNodes {γ : Type} (l : List γ) :
    (enumerateNodes l).map Prod.snd = l := by
  unfold enumerateNodes
  rw [List.map_map]
  have : (Prod.snd ∘ fun p : Nat × γ =>
      ((if (p.1 : Int) = (l.length : Int) - 1 then -1 else (p.1 : Int)), p.2)) = Prod.snd := by
    funext p
    rfl
  rw [this, List.enum_map_snd]

theorem exists_role_of_mem {γ : Type} (l : List γ) (x : γ) (h : x ∈ l) :
    ∃ i, (i, x) ∈ enumerateNodes l := by
  have h2 : x ∈ (enumerateNodes l).map Prod.snd := by
    rw [map_snd_enumerateNodes]
    exact h
  obtain ⟨q, hq, he⟩ := List.mem_map.mp h2
  exact ⟨q.1, by rw [← he]; exact hq⟩

theorem removeNodeOne_kills (m : MutableGraphStore) (h : m.Valid) (nk rk : Nat)
    (e : RelationshipEntry) (hnode : dlookup m.nodes nk ≠ none)
    (hrel : dlookup m.relationships rk = some e) (href : nk ∈ e.nodes) :
    dlookup (removeNodeOne m nk).relationships rk = none := by
  obtain ⟨⟨hL, hT, hN⟩, hnn, hnr, hbn, hbr⟩ := h
  simp only [toStore_nodes, toStore_relationships, toStore_nodes_by_label,
    toStore_relationships_by_type, toStore_relationships_by_node] at hL hT hN
  obtain ⟨i, hi⟩ := exists_role_of_mem e.nodes nk href
  have hpair : (rk, i) ∈ m.relationships.flatMap
      (fun p => relPairsAt p.1 p.2.nodes nk) := by
    rw [List.mem_flatMap]
    refine ⟨(rk, e), dlookup_mem _ _ _ hrel, ?_⟩
    unfold relPairsAt
    rw [List.mem_filterMap]
    exact ⟨(i, nk), hi, by simp⟩
  have hbspec : (rk, i) ∈ (nodeBucketSpec m.relationships nk).getD ∅ := by
    unfold nodeBucketSpec
    by_cases hemp : (m.relationships.flatMap (fun p => relPairsAt p.1 p.2.nodes nk)).toFinset = ∅
    · rw [← List.mem_toFinset] at hpair
      rw [hemp] at hpair
      exact absurd hpair (by simp)
    · simp only [if_neg hemp, Option.getD_some]
      rw [List.mem_toFinset]
      exact hpair
  unfold removeNodeOne
  cases hn : dlookup m.nodes nk with
  | none => exact absurd hn hnode
  | some ne =>
    cases hb : dlookup m.relationships_by_node nk with
    | none =>
      rw [hN nk] at hb
      rw [hb] at hbspec
      exact absurd hbspec (by simp)
    | some b =>
      have hbb : (rk, i) ∈ b := by
        rw [hN nk] at hb
        rw [hb] at hbspec
        simpa using hbspec
      have hmemlist : rk ∈ (b.image Prod.fst).sort (· ≤ ·) := by
        rw [Finset.mem_sort, Finset.mem_image]
        exact ⟨(rk, i), hbb, rfl⟩
      have hfin := remove_relationships_kills ((b.image Prod.fst).sort (· ≤ ·))
        { m with
          nodes := derase m.nodes nk,
          nodes_by_label := (ne.labels.sort (· ≤ ·)).foldl
            (fun d lb => ddiscardDrop d lb nk) m.nodes_by_label }
        rk hmemlist
      simpa [hb] using hfin

theorem remove_nodes_kills (nks : List Nat) (m : MutableGraphStore) (h : m.Valid)
    (nk rk : Nat) (e : RelationshipEntry) (hnk : nk ∈ nks)
    (hnode : dlookup m.nodes nk ≠ none)
    (hrel : dlookup m.relationships rk = some e) (href : nk ∈ e.nodes) :
    dlookup (remove_nodes m nks).relationships rk = none := by
  induction nks generalizing m with
  | nil => cases hnk
  | cons k t ih =>
    show dlookup ((List.foldl removeNodeOne m (k :: t))).relationships rk = none
    simp only [List.foldl_cons]
    by_cases hkr : k = nk
    · subst hkr
      exact remove_nodes_rel_none t _ rk (removeNodeOne_kills m h k rk e hnode hrel href)
    · rcases List.mem_cons.mp hnk with e2 | e2
      · exact absurd e2.symm hkr
      · have hv1 := removeNodeOne_valid m h k
        have hnode1 : dlookup (removeNodeOne m k).nodes nk ≠ none := by
          rw [removeNodeOne_node_other m k nk (fun he => hkr he.symm)]
          exact hnode
        rcases removeNodeOne_rel_keeps_or_none m k rk with h1 | h1
        · exact remove_nodes_rel_none t _ rk h1
        · exact ih _ hv1 e2 hnode1 (h1.trans hrel)

end CascadeLemmas

/-! ## Lemmas: concrete fixtures -/

section FixtureLemmas

theorem c2Store_valid : c2Store.Valid := by
  refine ⟨⟨?_, ?_, ?_⟩, ?_, ?_, ?_, ?_⟩
  · intro L
    simp [c2Store, MutableGraphStore.toStore, labelBucketSpec, dlookup]
  · intro T
    by_cases hT : "T" = T
    · subst hT
      decide
    · show dlookup [("T", ({5} : Finset Nat))] T = _
      have : typeBucketSpec c2Store.relationships T = none := by
        simp [c2Store, typeBucketSpec, List.filter_cons, hT]
      simp only [toStore_relationships] at this ⊢
      rw [this]
      simp [dlookup, hT]
  · intro N
    by_cases h0 : N = 0
    · subst h0
      decide
    · by_cases h1 : N = 1
      · subst h1
        decide
      · have e0 : ¬ (0 : Nat) = N := fun he => h0 he.symm
        have e1 : ¬ (1 : Nat) = N := fun he => h1 he.symm
        have henum : enumerateNodes [0, 1] = [((0 : Int), (0 : Nat)), (-1, 1)] := rfl
        have hspec : nodeBucketSpec c2Store.relationships N = none := by
          simp [c2Store, nodeBucketSpec, relPairsAt, henum, h0, h1]
          exact ⟨e0, e1⟩
        simp only [toStore_relationships, toStore_relationships_by_node] at hspec ⊢
        rw [hspec]
        show dlookup [((0 : Nat), ({(5, 0)} : Finset (Nat × Int))), (1, {(5, -1)})] N = none
        simp [dlookup, e0, e1]
  · simp [c2Store, dkeys]
  · simp [c2Store, dkeys]
  · intro k hk
    simp [c2Store, dkeys] at hk
    rcases hk with e | e <;> simp [c2Store, e]
  · intro k hk
    simp [c2Store, dkeys] at hk
    simp [c2Store, hk]

end FixtureLemmas

/-! ## Claim C1 -/

/-- C1: for every valid mutable store and every finite sequence of
`add_nodes` / `remove_nodes` / `add_relationships` / `remove_relationships`
operations, after the operations complete the three secondary indices
(`nodes_by_label`, `relationships_by_type`, `relationships_by_node`) are
exactly (as key-to-bucket maps) the indices that a full re-scan of the two
primary maps by `_build_nodes_by_label` / `_build_relationships_by_type` /
`_build_relationships_by_node` would produce.  Since the sequence is
arbitrary, this holds after each operation of any longer sequence. -/
theorem c1_index_consistency (m : MutableGraphStore) (h : m.Valid) (ops : List MutOp) :
    (applyOps m ops).MatchesRebuild :=
  valid_matchesRebuild _ (applyOps_valid m h ops)

/-- Witness for C1: a concrete run of all four operations from the empty
store. -/
theorem c1_index_consistency_witness :
    emptyMGS.Valid ∧ (applyOps emptyMGS c1Program).MatchesRebuild :=
  ⟨emptyMGS_valid, c1_index_consistency emptyMGS emptyMGS_valid c1Program⟩

/-! ## Claim C2 -/

/-- C2: `remove_nodes` removes, for each node it deletes, every relationship
whose endpoint list references that node; afterwards `relationship_type`,
`relationship_nodes` and `relationship_properties` on the removed
relationship key return the `None` sentinel and the removed relationship
appears in no index bucket. -/
theorem c2_remove_nodes_cascade (m : MutableGraphStore) (h : m.Valid) (nks : List Nat)
    (nk rk : Nat) (e : RelationshipEntry) (hnk : nk ∈ nks)
    (hnode : dlookup m.nodes nk ≠ none)
    (hrel : dlookup m.relationships rk = some e) (href : nk ∈ e.nodes) :
    C2RemovalSpec (remove_nodes m nks) rk := by
  have hkill := remove_nodes_kills nks m h nk rk e hnk hnode hrel href
  have hv := remove_nodes_valid m h nks
  obtain ⟨⟨hL, hT, hN⟩, hnn, hnr, _, _⟩ := hv
  simp only [toStore_nodes, toStore_relationships, toStore_nodes_by_label,
    toStore_relationships_by_type, toStore_relationships_by_node] at hT hN
  refine ⟨?_, ?_, ?_, ?_, ?_⟩
  · simp [GraphStore.relationship_type, hkill]
  · simp [GraphStore.relationship_nodes, hkill]
  · simp [GraphStore.relationship_properties, hkill]
  · intro T hmem
    rw [hT T] at hmem
    have h2 := mem_typeBucketSpec_keys _ _ _ hmem
    rw [mem_dkeys] at h2
    exact h2 hkill
  · intro N p hp he
    rw [hN N] at hp
    have h2 := mem_nodeBucketSpec_keys _ _ _ hp
    rw [mem_dkeys, he] at h2
    exact h2 hkill

/-- Witness for C2: removing node `0` from `c2Store` cascades onto the
relationship `5 : T(0, 1)`. -/
theorem c2_remove_nodes_cascade_witness :
    c2Store.Valid ∧ (0 ∈ ([0] : List Nat)) ∧
      dlookup c2Store.relationships 5 = some ⟨"T", [0, 1], []⟩ ∧
      C2RemovalSpec (remove_nodes c2Store [0]) 5 :=
  ⟨c2Store_valid, by decide, by decide,
    c2_remove_nodes_cascade c2Store c2Store_valid [0] 0 5 ⟨"T", [0, 1], []⟩
      (by decide) (by decide) (by decide) (by decide)⟩

/-! ## Lemmas: sequence-form endpoint queries (claim C3) -/

section QueryLemmas

theorem mem_nodeBucketSpec_of (rs : List (Nat × RelationshipEntry)) (r : Nat)
    (e : RelationshipEntry) (h : (r, e) ∈ rs) (N : Nat) (ρ : Int)
    (hp : (r, ρ) ∈ relPairsAt r e.nodes N) :
    nodeBucketSpec rs N =
      some ((rs.flatMap (fun p => relPairsAt p.1 p.2.nodes N)).toFinset) ∧
    (r, ρ) ∈ (rs.flatMap (fun p => relPairsAt p.1 p.2.nodes N)).toFinset := by
  have hmem : (r, ρ) ∈ (rs.flatMap (fun p => relPairsAt p.1 p.2.nodes N)).toFinset := by
    rw [List.mem_toFinset]
    exact List.mem_flatMap.mpr ⟨(r, e), h, hp⟩
  have hne : (rs.flatMap (fun p => relPairsAt p.1 p.2.nodes N)).toFinset ≠ ∅ := by
    intro h0
    rw [h0] at hmem
    exact absurd hmem (Finset.not_mem_empty _)
  exact ⟨by simp [nodeBucketSpec, hne], hmem⟩

theorem mem_query_of_bucket (s : GraphStore) (N r : Nat) (ρ : Int)
    (b : Finset (Nat × Int)) (hb : dlookup s.relationships_by_node N = some b)
    (hp : (r, ρ) ∈ b) :
    r ∈ (((dlookup s.relationships_by_node N).getD ∅).filter
      (fun p => p.2 = ρ)).image Prod.fst := by
  rw [hb]
  simp only [Option.getD_some]
  exact Finset.mem_image.mpr ⟨(r, ρ), Finset.mem_filter.mpr ⟨hp, rfl⟩, rfl⟩

end QueryLemmas

/-! ## Claim C3 -/

/-- C3 counterexample: in a store holding the arity-3 relationship
`10 : T(0, 1, 2)`, the sequence query `[None, 1, None]` DOES yield the
relationship — node `1` occupies the interior role `1`, which is exactly the
role position `1` of the query receives under the first/interior/last rule —
contradicting the claim that `[None, B, None]` does not match. -/
theorem c3_interior_position_matches :
    10 ∈ c3Store.relationshipsSeq none [none, some 1, none] := by decide

/-- C3 (amended): for a store whose indices match a re-scan and a
relationship `r` with endpoint list `(A, B, C)`, each of the three
single-position sequence queries `[A, None, None]`, `[None, None, C]` and
`[None, B, None]` yields `r`: every non-null position is matched against
exactly the role the first/interior/last rule assigns it, and the roles of
the query positions coincide with those of the endpoint list. -/
theorem c3_sequence_query (s : GraphStore) (hM : s.Matches) (r A B C : Nat)
    (T : String) (props : List (String × PyValue))
    (hr : dlookup s.relationships r = some ⟨T, [A, B, C], props⟩) :
    C3QuerySpec s r A B C := by
  obtain ⟨-, -, hN⟩ := hM
  have hrm : (r, (⟨T, [A, B, C], props⟩ : RelationshipEntry)) ∈ s.relationships :=
    dlookup_mem _ _ _ hr
  have henum : enumerateNodes [A, B, C] = [((0 : Int), A), (1, B), (-1, C)] := rfl
  have hpA : (r, (0 : Int)) ∈ relPairsAt r [A, B, C] A :=
    List.mem_filterMap.mpr ⟨((0 : Int), A), by rw [henum]; simp, by simp⟩
  have hpB : (r, (1 : Int)) ∈ relPairsAt r [A, B, C] B :=
    List.mem_filterMap.mpr ⟨((1 : Int), B), by rw [henum]; simp, by simp⟩
  have hpC : (r, (-1 : Int)) ∈ relPairsAt r [A, B, C] C :=
    List.mem_filterMap.mpr ⟨((-1 : Int), C), by rw [henum]; simp, by simp⟩
  obtain ⟨hsA, hmA⟩ := mem_nodeBucketSpec_of s.relationships r _ hrm A 0 hpA
  obtain ⟨hsB, hmB⟩ := mem_nodeBucketSpec_of s.relationships r _ hrm B 1 hpB
  obtain ⟨hsC, hmC⟩ := mem_nodeBucketSpec_of s.relationships r _ hrm C (-1) hpC
  have hqA : s.relationshipsSeq none [some A, none, none] =
      (((dlookup s.relationships_by_node A).getD ∅).filter
        (fun p => p.2 = (0 : Int))).image Prod.fst := rfl
  have hqB : s.relationshipsSeq none [none, some B, none] =
      (((dlookup s.relationships_by_node B).getD ∅).filter
        (fun p => p.2 = (1 : Int))).image Prod.fst := rfl
  have hqC : s.relationshipsSeq none [none, none, some C] =
      (((dlookup s.relationships_by_node C).getD ∅).filter
        (fun p => p.2 = (-1 : Int))).image Prod.fst := rfl
  refine ⟨?_, ?_, ?_⟩
  · rw [hqA]
    exact mem_query_of_bucket s A r 0 _ ((hN A).trans hsA) hmA
  · rw [hqC]
    exact mem_query_of_bucket s C r (-1) _ ((hN C).trans hsC) hmC
  · rw [hqB]
    exact mem_query_of_bucket s B r 1 _ ((hN B).trans hsB) hmB

/-- Witness for C3 (amended): the concrete store `c3Store` with relationship
`10 : T(0, 1, 2)`. -/
theorem c3_sequence_query_witness :
    c3Store.Matches ∧
    dlookup c3Store.relationships 10 = some ⟨"T", [0, 1, 2], []⟩ ∧
    C3QuerySpec c3Store 10 0 1 2 := by
  refine ⟨mkGraphStore_matches _ _, rfl, ?_⟩
  exact c3_sequence_query c3Store (mkGraphStore_matches _ _) 10 0 1 2 "T" [] rfl

/-! ## Claim C5 -/

/-- C5 counterexample: `{1} &= {2}` fires `on_remove` with `{1} ^ {2} =
{1, 2}` — the element `2`, which was never a member and whose membership did
not change, is passed to the callback — so `__iand__` is not exact. -/
theorem c5_iand_not_exact :
    ¬ RSExact ({1} : Finset Nat) (rsIand {1} {2}) := by
  unfold RSExact rsIand
  decide

/-- C5 (amended): for every `ReactiveSet` state and every mutating operation,
`on_add` is invoked with exactly the elements that entered and `on_remove`
with exactly the elements that left — except `__iand__`, whose `on_remove`
argument is the symmetric difference `self ^ other`: the departed elements
together with the elements of `other` that were never members.  (`p ∈ s`
makes `pop` meaningful: `set.pop` always returns a member.) -/
theorem c5_reactive_callbacks {α : Type} [DecidableEq α] (s other : Finset α)
    (e p : α) (hp : p ∈ s) : RSCallbacksSpec s other e p := by
  refine ⟨⟨?_, ?_⟩, ⟨rfl, rfl, ?_⟩, ⟨?_, ?_⟩, ⟨?_, ?_⟩, ?_, ?_, ?_, ⟨?_, ?_⟩, ⟨?_, ?_⟩⟩
  · show other \ s = (s ∪ other) \ s
    ext x
    simp
    tauto
  · show (∅ : Finset α) = s \ (s ∪ other)
    ext x
    simp
    tauto
  · show (s \ other) ∪ (other \ s) = (s \ (s ∩ other)) ∪ (other \ s)
    ext x
    simp
  · show (∅ : Finset α) = (s \ other) \ s
    ext x
    simp
  · show s ∩ other = s \ (s \ other)
    ext x
    simp
  · show other \ s = ((s \ other) ∪ (other \ s)) \ s
    ext x
    simp
    tauto
  · show s ∩ other = s \ ((s \ other) ∪ (other \ s))
    ext x
    simp
    tauto
  · show RSExact s (rsAdd s e)
    by_cases he : e ∈ s
    · refine ⟨?_, ?_⟩ <;> simp [rsAdd, he, RSExact]
    · simp only [rsAdd, if_neg he]
      refine ⟨?_, ?_⟩
      · show ({e} : Finset α) = insert e s \ s
        ext x
        by_cases hx : x = e <;> simp [he, hx]
      · show (∅ : Finset α) = s \ insert e s
        ext x
        simp
        intro hx _
        exact hx
  · show (rsRemoveEl s e).elim True (fun d => RSExact s d)
    by_cases he : e ∈ s
    · simp only [rsRemoveEl, if_pos he, Option.elim_some]
      refine ⟨?_, ?_⟩
      · show (∅ : Finset α) = s.erase e \ s
        ext x
        simp [Finset.mem_erase]
      · show ({e} : Finset α) = s \ s.erase e
        ext x
        by_cases hx : x = e <;> simp [Finset.mem_erase, hx, he]
    · simp [rsRemoveEl, he]
  · show RSExact s (rsDiscard s e)
    by_cases he : e ∈ s
    · simp only [rsDiscard, if_pos he]
      refine ⟨?_, ?_⟩
      · show (∅ : Finset α) = s.erase e \ s
        ext x
        simp [Finset.mem_erase]
      · show ({e} : Finset α) = s \ s.erase e
        ext x
        by_cases hx : x = e <;> simp [Finset.mem_erase, hx, he]
    · simp only [rsDiscard, if_neg he]
      refine ⟨?_, ?_⟩ <;> simp [RSExact, he]
  · show (∅ : Finset α) = s.erase p \ s
    ext x
    simp [Finset.mem_erase]
  · show ({p} : Finset α) = s \ s.erase p
    ext x
    by_cases hx : x = p <;> simp [Finset.mem_erase, hx, hp]
  · show (∅ : Finset α) = ∅ \ s
    simp
  · show s = s \ ∅
    simp

/-- Witness for C5 (amended): state `{1}`, argument `{2}`, single element
`5`, popped member `1`. -/
theorem c5_reactive_callbacks_witness :
    (1 ∈ ({1} : Finset Nat)) ∧ RSCallbacksSpec ({1} : Finset Nat) {2} 5 1 :=
  ⟨by decide, c5_reactive_callbacks {1} {2} 5 1 (by decide)⟩

/-! ## Claim C6 -/

/-- C6 counterexample: looking up the absent key `"b"` under the
non-nullable `PropertyValue` policy does NOT fail — it returns `None` — while
under the nullable `Value` policy it is the lookup that raises `KeyError`:
the code's branches are the reverse of the claim. -/
theorem c6_absent_key_counterexample :
    recordGetItemStr .propertyValue [("a", PyValue.atom (PyAtom.int 1))] "b" =
      Except.ok PyValue.none ∧
    recordGetItemStr .value [("a", PyValue.atom (PyAtom.int 1))] "b" =
      Except.error PyErr.keyError := by
  exact ⟨rfl, rfl⟩

/-- C6 (amended): for every record and every string key not among its keys,
lookup under a nullable coercion policy (plain `Record`) raises `KeyError`,
while lookup under a non-nullable policy (such as a `PropertyRecord`)
returns the `None` sentinel instead of failing. -/
theorem c6_absent_key_lookup (c : VClass) (r : RecordData) (k : String)
    (h : dlookup r k = none) :
    recordGetItemStr c r k =
      if c.nullable then Except.error PyErr.keyError else Except.ok PyValue.none := by
  unfold recordGetItemStr
  rw [h]

/-- Witness for C6 (amended): the record `{a: 1}` and the absent key `"b"`
under the `PropertyValue` policy. -/
theorem c6_absent_key_lookup_witness :
    dlookup ([("a", PyValue.atom (PyAtom.int 1))] : RecordData) "b" = none ∧
    recordGetItemStr .propertyValue [("a", PyValue.atom (PyAtom.int 1))] "b" =
      (if VClass.propertyValue.nullable then Except.error PyErr.keyError
        else Except.ok PyValue.none) :=
  ⟨rfl, c6_absent_key_lookup .propertyValue _ "b" rfl⟩

/-! ## Claim C9 -/

/-- C9 (code bug): `PropertyRecord(())` is legal — the empty iterable
constructs the empty record — but computing its hash does not succeed:
`reduce(xor, map(hash, items()))` has no initial value, so on the empty item
sequence it raises `TypeError` (modelled as `none`) for every possible
per-item hash function. -/
theorem c9_empty_record_hash_fails :
    propertyRecordNew [] = Except.ok [] ∧
    ∀ h : String × PyValue → Nat, prHash h [] = none :=
  ⟨rfl, fun _ => rfl⟩

/-! ## Claim C10 -/

/-- C10: store equality first requires `isinstance(other, self.__class__)`,
and `FrozenGraphStore` and `MutableGraphStore` are unrelated classes, so a
frozen store never compares equal to a mutable one — in either direction and
even when both hold exactly the same primary maps. -/
theorem c10_frozen_mutable_never_equal (s1 s2 : GraphStore) :
    storeEq .frozen .mutable s1 s2 = false ∧
    storeEq .mutable .frozen s1 s2 = false :=
  ⟨rfl, rfl⟩

/-! ## Lemmas: label-state preservation (claim C4) -/

section LabelStateLemmas

theorem labelState_of_fields (m1 m2 : MutableGraphStore)
    (h1 : m2.nodes = m1.nodes) (h2 : m2.nodes_by_label = m1.nodes_by_label)
    (h3 : m2.next_node_key = m1.next_node_key) (h : LabelState m1) :
    LabelState m2 := by
  unfold LabelState LabelIndexSound
  rw [h1, h2, h3]
  exact h

theorem removeRelOne_node_fields (m : MutableGraphStore) (rk : Nat) :
    (removeRelOne m rk).nodes = m.nodes ∧
    (removeRelOne m rk).nodes_by_label = m.nodes_by_label ∧
    (removeRelOne m rk).next_node_key = m.next_node_key := by
  unfold removeRelOne
  cases hrel : dlookup m.relationships rk <;> exact ⟨rfl, rfl, rfl⟩

theorem remove_relationships_node_fields (rks : List Nat) (m : MutableGraphStore) :
    (remove_relationships m rks).nodes = m.nodes ∧
    (remove_relationships m rks).nodes_by_label = m.nodes_by_label ∧
    (remove_relationships m rks).next_node_key = m.next_node_key := by
  induction rks generalizing m with
  | nil => exact ⟨rfl, rfl, rfl⟩
  | cons k t ih =>
    obtain ⟨f1, f2, f3⟩ := removeRelOne_node_fields m k
    obtain ⟨g1, g2, g3⟩ := ih (removeRelOne m k)
    exact ⟨g1.trans f1, g2.trans f2, g3.trans f3⟩

theorem add_relationships_node_fields
    (entries : List (String × List Nat × List (String × PyValue)))
    (m : MutableGraphStore) :
    (add_relationships m entries).1.nodes = m.nodes ∧
    (add_relationships m entries).1.nodes_by_label = m.nodes_by_label ∧
    (add_relationships m entries).1.next_node_key = m.next_node_key := by
  induction entries generalizing m with
  | nil => exact ⟨rfl, rfl, rfl⟩
  | cons entry rest ih =>
    obtain ⟨t, nks, props⟩ := entry
    obtain ⟨g1, g2, g3⟩ := ih { m with
      relationships := dinsert m.relationships m.next_relationship_key ⟨t, nks, props⟩,
      relationships_by_type := dsetAdd m.relationships_by_type t m.next_relationship_key,
      relationships_by_node := (enumerateNodes nks).foldl
        (fun d q => dsetAdd d q.2 (m.next_relationship_key, q.1)) m.relationships_by_node,
      next_relationship_key := m.next_relationship_key + 1 }
    exact ⟨g1, g2, g3⟩

theorem remove_relationships_labelState (m : MutableGraphStore) (rks : List Nat)
    (h : LabelState m) : LabelState (remove_relationships m rks) := by
  obtain ⟨f1, f2, f3⟩ := remove_relationships_node_fields rks m
  exact labelState_of_fields m _ f1 f2 f3 h

theorem add_relationships_labelState
    (entries : List (String × List Nat × List (String × PyValue)))
    (m : MutableGraphStore) (h : LabelState m) :
    LabelState (add_relationships m entries).1 := by
  obtain ⟨f1, f2, f3⟩ := add_relationships_node_fields entries m
  exact labelState_of_fields m _ f1 f2 f3 h

theorem labelEdit_core (m : MutableGraphStore) (nk : Nat) (e : NodeEntry)
    (hlk : dlookup m.nodes nk = some e) (d : RSDelta String)
    (hpost : d.post = (e.labels ∪ d.added) \ d.removed)
    (h : LabelState m) :
    LabelState { m with
      nodes := dinsert m.nodes nk ⟨d.post, e.properties⟩,
      nodes_by_label := (d.removed.sort (· ≤ ·)).foldl (fun dd lb => ddiscardKeep dd lb nk)
        ((d.added.sort (· ≤ ·)).foldl (fun dd lb => dsetAdd dd lb nk)
          m.nodes_by_label) } := by
  obtain ⟨hsound, hnodup, hbound⟩ := h
  have hnkmem : nk ∈ dkeys m.nodes :=
    (mem_dkeys _ _).mpr (by rw [hlk]; exact Option.some_ne_none e)
  refine ⟨?_, nodup_dkeys_dinsert _ _ _ hnodup, ?_⟩
  · intro L n
    show n ∈ (dlookup ((d.removed.sort (· ≤ ·)).foldl
        (fun dd lb => ddiscardKeep dd lb nk)
        ((d.added.sort (· ≤ ·)).foldl (fun dd lb => dsetAdd dd lb nk)
          m.nodes_by_label)) L).getD ∅ ↔
      ∃ e', dlookup (dinsert m.nodes nk ⟨d.post, e.properties⟩) n = some e' ∧
        L ∈ e'.labels
    rw [mem_foldl_ddiscardKeep_list, mem_foldl_dsetAdd_list]
    simp only [dlookup_dinsert]
    by_cases hn : n = nk
    · subst hn
      simp only [if_pos rfl]
      constructor
      · rintro ⟨hadd, hrem⟩
        refine ⟨⟨d.post, e.properties⟩, rfl, ?_⟩
        show L ∈ d.post
        rw [hpost]
        have hLrem : L ∉ d.removed := by
          intro hc
          exact hrem ⟨(Finset.mem_sort _).mpr hc, True.intro⟩
        rcases hadd with ⟨hLs, _⟩ | hold
        · exact Finset.mem_sdiff.mpr
            ⟨Finset.mem_union_right _ ((Finset.mem_sort _).mp hLs), hLrem⟩
        · obtain ⟨e2, he2, hL2⟩ := (hsound L n).mp hold
          rw [hlk] at he2
          have he3 : e2 = e := (Option.some.inj he2).symm
          subst he3
          exact Finset.mem_sdiff.mpr ⟨Finset.mem_union_left _ hL2, hLrem⟩
      · rintro ⟨e', he', hL'⟩
        have hee : e' = ⟨d.post, e.properties⟩ := (Option.some.inj he').symm
        subst hee
        have hLp : L ∈ d.post := hL'
        rw [hpost] at hLp
        obtain ⟨hun, hnrem⟩ := Finset.mem_sdiff.mp hLp
        constructor
        · rcases Finset.mem_union.mp hun with hs | ha
          · exact Or.inr ((hsound L n).mpr ⟨e, hlk, hs⟩)
          · exact Or.inl ⟨(Finset.mem_sort _).mpr ha, True.intro⟩
        · rintro ⟨hmem, -⟩
          exact hnrem ((Finset.mem_sort _).mp hmem)
    · have hn' : ¬ nk = n := fun c => hn c.symm
      simp only [if_neg hn']
      constructor
      · rintro ⟨hadd, -⟩
        rcases hadd with ⟨-, hc⟩ | hold
        · exact absurd hc hn
        · exact (hsound L n).mp hold
      · intro hex
        exact ⟨Or.inr ((hsound L n).mpr hex), fun c => hn c.2⟩
  · intro k hk
    rw [mem_dkeys_dinsert] at hk
    rcases hk with rfl | hk
    · exact hbound _ hnkmem
    · exact hbound k hk

theorem applyLabelOp_labelState (m : MutableGraphStore) (nk : Nat) (op : LabelOp)
    (h : LabelState m) : LabelState (applyLabelOp m nk op) := by
  unfold applyLabelOp
  cases hlk : dlookup m.nodes nk with
  | none => exact h
  | some e =>
    cases op with
    | ior o =>
      refine labelEdit_core m nk e hlk (rsIor e.labels o) ?_ h
      show e.labels ∪ o = (e.labels ∪ (o \ e.labels)) \ ∅
      ext x
      simp
    | iand o =>
      refine labelEdit_core m nk e hlk (rsIand e.labels o) ?_ h
      show e.labels ∩ o = (e.labels ∪ ∅) \ ((e.labels \ o) ∪ (o \ e.labels))
      ext x
      simp
      tauto
    | isub o =>
      refine labelEdit_core m nk e hlk (rsIsub e.labels o) ?_ h
      show e.labels \ o = (e.labels ∪ ∅) \ (e.labels ∩ o)
      ext x
      simp
    | ixor o =>
      refine labelEdit_core m nk e hlk (rsIxor e.labels o) ?_ h
      show (e.labels \ o) ∪ (o \ e.labels) =
        (e.labels ∪ (o \ e.labels)) \ (e.labels ∩ o)
      ext x
      simp
      tauto
    | addLb lb =>
      refine labelEdit_core m nk e hlk (rsAdd e.labels lb) ?_ h
      by_cases hlb : lb ∈ e.labels
      · simp only [rsAdd, if_pos hlb]
        show e.labels = (e.labels ∪ ∅) \ ∅
        simp
      · simp only [rsAdd, if_neg hlb]
        show insert lb e.labels = (e.labels ∪ {lb}) \ ∅
        ext x
        simp
        tauto
    | removeLb lb =>
      refine labelEdit_core m nk e hlk
        ((rsRemoveEl e.labels lb).getD ⟨e.labels, ∅, ∅⟩) ?_ h
      by_cases hlb : lb ∈ e.labels
      · simp only [rsRemoveEl, if_pos hlb, Option.getD_some]
        show e.labels.erase lb = (e.labels ∪ ∅) \ {lb}
        ext x
        simp [Finset.mem_erase]
        tauto
      · simp only [rsRemoveEl, if_neg hlb, Option.getD_none]
        show e.labels = (e.labels ∪ ∅) \ ∅
        simp
    | discardLb lb =>
      refine labelEdit_core m nk e hlk (rsDiscard e.labels lb) ?_ h
      by_cases hlb : lb ∈ e.labels
      · simp only [rsDiscard, if_pos hlb]
        show e.labels.erase lb = (e.labels ∪ ∅) \ {lb}
        ext x
        simp [Finset.mem_erase]
        tauto
      · simp only [rsDiscard, if_neg hlb]
        show e.labels = (e.labels ∪ ∅) \ ∅
        simp
    | popLb lb =>
      refine labelEdit_core m nk e hlk
        (if lb ∈ e.labels then rsPop e.labels lb else ⟨e.labels, ∅, ∅⟩) ?_ h
      by_cases hlb : lb ∈ e.labels
      · simp only [if_pos hlb, rsPop]
        show e.labels.erase lb = (e.labels ∪ ∅) \ {lb}
        ext x
        simp [Finset.mem_erase]
        tauto
      · simp only [if_neg hlb]
        show e.labels = (e.labels ∪ ∅) \ ∅
        simp
    | clearLbs =>
      refine labelEdit_core m nk e hlk (rsClear e.labels) ?_ h
      show (∅ : Finset String) = (e.labels ∪ ∅) \ e.labels
      simp

end LabelStateLemmas

section LabelStateLemmas2

theorem removeNodeOne_labelState (m : MutableGraphStore) (nk : Nat)
    (h : LabelState m) : LabelState (removeNodeOne m nk) := by
  obtain ⟨hsound, hnodup, hbound⟩ := h
  unfold removeNodeOne
  cases hlk : dlookup m.nodes nk with
  | none => exact ⟨hsound, hnodup, hbound⟩
  | some e =>
    have hm2 : LabelState ({ m with
        nodes := derase m.nodes nk,
        nodes_by_label := (e.labels.sort (· ≤ ·)).foldl
          (fun d lb => ddiscardDrop d lb nk) m.nodes_by_label } :
          MutableGraphStore) := by
      refine ⟨?_, nodup_dkeys_derase _ _ hnodup, ?_⟩
      · intro L n
        show n ∈ (dlookup ((e.labels.sort (· ≤ ·)).foldl
            (fun d lb => ddiscardDrop d lb nk) m.nodes_by_label) L).getD ∅ ↔
          ∃ e', dlookup (derase m.nodes nk) n = some e' ∧ L ∈ e'.labels
        rw [mem_foldl_ddiscardDrop_list]
        simp only [dlookup_derase]
        by_cases hn : n = nk
        · subst hn
          simp only [if_pos rfl]
          constructor
          · rintro ⟨hold, hno⟩
            obtain ⟨e2, he2, hL2⟩ := (hsound L n).mp hold
            rw [hlk] at he2
            have he3 : e2 = e := (Option.some.inj he2).symm
            subst he3
            exact absurd ⟨(Finset.mem_sort _).mpr hL2, by trivial⟩ hno
          · rintro ⟨e', he', -⟩
            exact absurd he' (by simp)
        · have hn' : ¬ nk = n := fun c => hn c.symm
          simp only [if_neg hn']
          constructor
          · rintro ⟨hold, -⟩
            exact (hsound L n).mp hold
          · intro hex
            exact ⟨(hsound L n).mpr hex, fun c => hn c.2⟩
      · intro k hk
        rw [mem_dkeys_derase] at hk
        exact hbound k hk.2
    cases hb : dlookup m.relationships_by_node nk with
    | none => simpa [hb] using hm2
    | some b =>
      have hfin := remove_relationships_labelState _
        ((b.image Prod.fst).sort (· ≤ ·)) hm2
      simpa [hb] using hfin

theorem remove_nodes_labelState (nks : List Nat) (m : MutableGraphStore)
    (h : LabelState m) : LabelState (remove_nodes m nks) := by
  induction nks generalizing m with
  | nil => exact h
  | cons k t ih =>
    show LabelState (List.foldl removeNodeOne m (k :: t))
    simp only [List.foldl_cons]
    exact ih _ (removeNodeOne_labelState m k h)

theorem addNodes_loop_memInv
    (entries : List (Finset String × List (String × PyValue))) (st : AddNodesState)
    (h1 : ∀ L n, n ∈ (dlookup st.m.nodes_by_label L).getD ∅ ↔
      ∃ e, dlookup (st.m.nodes ++ st.acc) n = some e ∧ L ∈ e.labels)
    (h2 : ∀ L x, x ∈ (dlookup st.localLabels L).getD ∅ →
      x ∈ (dlookup st.m.nodes_by_label L).getD ∅)
    (h3 : (dkeys (st.m.nodes ++ st.acc)).Nodup)
    (h4 : ∀ k ∈ dkeys (st.m.nodes ++ st.acc), k < st.m.next_node_key)
    (h5 : (dkeys st.localLabels).Nodup)
    (h6 : ∀ L b, dlookup st.localLabels L = some b → b ≠ ∅) :
    (∀ L n, n ∈ (dlookup (entries.foldl addNodesStep st).m.nodes_by_label L).getD ∅ ↔
      ∃ e, dlookup ((entries.foldl addNodesStep st).m.nodes ++
        (entries.foldl addNodesStep st).acc) n = some e ∧ L ∈ e.labels) ∧
    (∀ L x, x ∈ (dlookup (entries.foldl addNodesStep st).localLabels L).getD ∅ →
      x ∈ (dlookup (entries.foldl addNodesStep st).m.nodes_by_label L).getD ∅) ∧
    (dkeys ((entries.foldl addNodesStep st).m.nodes ++
      (entries.foldl addNodesStep st).acc)).Nodup ∧
    (∀ k ∈ dkeys ((entries.foldl addNodesStep st).m.nodes ++
      (entries.foldl addNodesStep st).acc),
        k < (entries.foldl addNodesStep st).m.next_node_key) ∧
    (dkeys (entries.foldl addNodesStep st).localLabels).Nodup ∧
    (∀ L b, dlookup (entries.foldl addNodesStep st).localLabels L = some b →
      b ≠ ∅) := by
  induction entries generalizing st with
  | nil => exact ⟨h1, h2, h3, h4, h5, h6⟩
  | cons entry rest ih =>
    simp only [List.foldl_cons]
    set key := st.m.next_node_key with hkey
    have hkfresh : key ∉ dkeys (st.m.nodes ++ st.acc) := by
      intro hmem
      have := h4 key hmem
      omega
    have hkacc : key ∉ dkeys st.acc := by
      intro hmem
      exact hkfresh (by rw [dkeys_append]; exact List.mem_append.mpr (Or.inr hmem))
    have hacc1 : (addNodesStep st entry).acc = st.acc ++ [(key, ⟨entry.1, entry.2⟩)] := by
      show dinsert st.acc key ⟨entry.1, entry.2⟩ = _
      exact dinsert_fresh _ _ _ hkacc
    have hlknone : dlookup (st.m.nodes ++ st.acc) key = none := by
      cases hc : dlookup (st.m.nodes ++ st.acc) key with
      | none => rfl
      | some v =>
        exact absurd ((mem_dkeys _ _).mpr
          (by rw [hc]; exact Option.some_ne_none v)) hkfresh
    have hlkey : dlookup (st.m.nodes ++ st.acc ++
        [(key, (⟨entry.1, entry.2⟩ : NodeEntry))]) key = some ⟨entry.1, entry.2⟩ := by
      rw [dlookup_append, hlknone]
      simp [dlookup]
    refine ih (addNodesStep st entry) ?_ ?_ ?_ ?_ ?_ ?_
    · intro L n
      show n ∈ (dlookup ((entry.1.sort (· ≤ ·)).foldl (fun d lb => dsetAdd d lb key)
          st.m.nodes_by_label) L).getD ∅ ↔
        ∃ e, dlookup ((addNodesStep st entry).m.nodes ++
          (addNodesStep st entry).acc) n = some e ∧ L ∈ e.labels
      rw [mem_foldl_dsetAdd_list]
      simp only [show (addNodesStep st entry).m.nodes = st.m.nodes from rfl, hacc1,
        ← List.append_assoc]
      by_cases hn : n = key
      · constructor
        · intro hmem
          rcases hmem with ⟨hLs, -⟩ | hold
          · exact ⟨⟨entry.1, entry.2⟩, by rw [hn]; exact hlkey,
              (Finset.mem_sort _).mp hLs⟩
          · obtain ⟨e2, he2, -⟩ := (h1 L n).mp hold
            rw [hn, hlknone] at he2
            exact absurd he2 (by simp)
        · rintro ⟨e2, he2, hL2⟩
          rw [hn] at he2
          rw [hlkey] at he2
          have he3 : e2 = ⟨entry.1, entry.2⟩ := (Option.some.inj he2).symm
          subst he3
          exact Or.inl ⟨(Finset.mem_sort _).mpr hL2, hn⟩
      · have hlkn : dlookup (st.m.nodes ++ st.acc ++
            [(key, (⟨entry.1, entry.2⟩ : NodeEntry))]) n =
            dlookup (st.m.nodes ++ st.acc) n := by
          rw [dlookup_append]
          cases hc : dlookup (st.m.nodes ++ st.acc) n with
          | some v => rfl
          | none =>
            show dlookup [(key, (⟨entry.1, entry.2⟩ : NodeEntry))] n = none
            have hkn : ¬ key = n := fun c => hn c.symm
            simp [dlookup, hkn]
        simp only [hlkn]
        constructor
        · intro hmem
          rcases hmem with ⟨-, hc⟩ | hold
          · exact absurd hc hn
          · exact (h1 L n).mp hold
        · intro hex
          exact Or.inr ((h1 L n).mpr hex)
    · intro L x hx
      show x ∈ (dlookup ((entry.1.sort (· ≤ ·)).foldl (fun d lb => dsetAdd d lb key)
          st.m.nodes_by_label) L).getD ∅
      have hx' : x ∈ (dlookup ((entry.1.sort (· ≤ ·)).foldl
          (fun d lb => dsetAdd d lb key) st.localLabels) L).getD ∅ := hx
      rw [mem_foldl_dsetAdd_list] at hx'
      rw [mem_foldl_dsetAdd_list]
      rcases hx' with ⟨hLs, hxk⟩ | hold
      · exact Or.inl ⟨hLs, hxk⟩
      · exact Or.inr (h2 L x hold)
    · rw [show (addNodesStep st entry).m.nodes = st.m.nodes from rfl, hacc1,
        ← List.append_assoc, dkeys_append, List.nodup_append]
      refine ⟨h3, by simp [dkeys], ?_⟩
      intro a ha hb2
      simp [dkeys] at hb2
      rw [hb2] at ha
      exact hkfresh ha
    · intro k hk
      rw [show (addNodesStep st entry).m.nodes = st.m.nodes from rfl, hacc1,
        ← List.append_assoc, dkeys_append] at hk
      rw [show (addNodesStep st entry).m.next_node_key = st.m.next_node_key + 1
        from rfl]
      rcases List.mem_append.mp hk with hmem | hmem
      · have := h4 k hmem
        omega
      · simp [dkeys] at hmem
        omega
    · show (dkeys ((entry.1.sort (· ≤ ·)).foldl (fun d lb => dsetAdd d lb key)
        st.localLabels)).Nodup
      exact nodup_dkeys_foldl_dsetAdd _ _ _ h5
    · intro L b hb2
      have hb3 : dlookup ((entry.1.sort (· ≤ ·)).foldl
          (fun d lb => dsetAdd d lb key) st.localLabels) L = some b := hb2
      rw [dlookup_foldl_dsetAdd_list] at hb3
      by_cases hL : L ∈ entry.1.sort (· ≤ ·)
      · rw [if_pos hL] at hb3
        have hbv : b = insert key ((dlookup st.localLabels L).getD ∅) :=
          (Option.some.inj hb3).symm
        rw [hbv]
        exact Finset.insert_ne_empty _ _
      · rw [if_neg hL] at hb3
        exact h6 L b hb3

theorem add_nodes_labelState (m : MutableGraphStore)
    (entries : List (Finset String × List (String × PyValue))) (h : LabelState m) :
    LabelState (add_nodes m entries).1 := by
  obtain ⟨hsound, hnodup, hbound⟩ := h
  obtain ⟨i1, i2, i3, i4, i5, i6⟩ := addNodes_loop_memInv entries ⟨m, [], [], []⟩
    (by intro L n; simpa using hsound L n)
    (by intro L x hx; simpa [dlookup] using hx)
    (by simpa using hnodup)
    (by intro k hk; exact hbound k (by simpa using hk))
    (by simp [dkeys])
    (by intro L b hb; simp [dlookup] at hb)
  set st := entries.foldl addNodesStep ⟨m, [], [], []⟩ with hst
  have hnodes : st.acc.foldl (fun d (p : Nat × NodeEntry) => dinsert d p.1 p.2)
      st.m.nodes = st.m.nodes ++ st.acc := foldl_dinsert_append st.acc st.m.nodes i3
  have hsub : ∀ p ∈ st.localLabels, ∃ c,
      dlookup st.m.nodes_by_label p.1 = some c ∧ p.2 ⊆ c := by
    intro p hp
    have hlp : dlookup st.localLabels p.1 = some p.2 := nodup_mem_dlookup _ i5 p hp
    have hpne : p.2 ≠ ∅ := i6 p.1 p.2 hlp
    obtain ⟨x, hx⟩ := Finset.nonempty_iff_ne_empty.mpr hpne
    have hxg : x ∈ (dlookup st.m.nodes_by_label p.1).getD ∅ :=
      i2 p.1 x (by rw [hlp]; simpa using hx)
    cases hg : dlookup st.m.nodes_by_label p.1 with
    | none =>
      rw [hg] at hxg
      simp at hxg
    | some c =>
      refine ⟨c, rfl, ?_⟩
      intro y hy
      have hyg := i2 p.1 y (by rw [hlp]; simpa using hy)
      rw [hg] at hyg
      simpa using hyg
  have hmerge : st.localLabels.foldl
      (fun d (p : String × Finset Nat) => dsetUnion d p.1 p.2) st.m.nodes_by_label
      = st.m.nodes_by_label := foldl_dsetUnion_noop _ _ hsub
  have hrec : (add_nodes m entries).1 = { st.m with nodes := st.m.nodes ++ st.acc } := by
    show ({ { (entries.foldl addNodesStep ⟨m, [], [], []⟩).m with
        nodes := (entries.foldl addNodesStep ⟨m, [], [], []⟩).acc.foldl
          (fun d (p : Nat × NodeEntry) => dinsert d p.1 p.2)
          (entries.foldl addNodesStep ⟨m, [], [], []⟩).m.nodes } with
      nodes_by_label := (entries.foldl addNodesStep ⟨m, [], [], []⟩).localLabels.foldl
        (fun d (p : String × Finset Nat) => dsetUnion d p.1 p.2)
        (entries.foldl addNodesStep ⟨m, [], [], []⟩).m.nodes_by_label } :
          MutableGraphStore) = _
    rw [← hst, hnodes, hmerge]
  rw [hrec]
  refine ⟨?_, i3, ?_⟩
  · intro L n
    exact i1 L n
  · intro k hk
    exact i4 k hk

theorem applyOp_labelState (m : MutableGraphStore) (op : MutOp) (h : LabelState m) :
    LabelState (applyOp m op) := by
  cases op with
  | addNodes es => exact add_nodes_labelState m es h
  | removeNodes ks => exact remove_nodes_labelState ks m h
  | addRelationships es => exact add_relationships_labelState es m h
  | removeRelationships ks => exact remove_relationships_labelState m ks h

theorem applyNodePropOp_labelState (m : MutableGraphStore) (nk : Nat) (op : PropOp)
    (h : LabelState m) : LabelState (applyNodePropOp m nk op) := by
  obtain ⟨hsound, hnodup, hbound⟩ := h
  unfold applyNodePropOp
  cases hlk : dlookup m.nodes nk with
  | none => exact ⟨hsound, hnodup, hbound⟩
  | some e =>
    have hnkmem : nk ∈ dkeys m.nodes :=
      (mem_dkeys _ _).mpr (by rw [hlk]; exact Option.some_ne_none e)
    refine ⟨?_, nodup_dkeys_dinsert _ _ _ hnodup, ?_⟩
    · intro L n
      show n ∈ (dlookup m.nodes_by_label L).getD ∅ ↔
        ∃ e', dlookup (dinsert m.nodes nk ⟨e.labels, applyPropOp e.properties op⟩) n =
          some e' ∧ L ∈ e'.labels
      simp only [dlookup_dinsert]
      by_cases hn : nk = n
      · rw [if_pos hn]
        constructor
        · intro hmem
          refine ⟨⟨e.labels, applyPropOp e.properties op⟩, rfl, ?_⟩
          show L ∈ e.labels
          obtain ⟨e2, he2, hL2⟩ := (hsound L n).mp hmem
          rw [← hn, hlk] at he2
          have he3 : e2 = e := (Option.some.inj he2).symm
          subst he3
          exact hL2
        · rintro ⟨e', he', hL'⟩
          have hee : e' = ⟨e.labels, applyPropOp e.properties op⟩ :=
            (Option.some.inj he').symm
          subst hee
          have hLe : L ∈ e.labels := hL'
          exact (hsound L n).mpr ⟨e, by rw [← hn]; exact hlk, hLe⟩
      · rw [if_neg hn]
        exact hsound L n
    · intro k hk
      rw [mem_dkeys_dinsert] at hk
      rcases hk with rfl | hk
      · exact hbound _ hnkmem
      · exact hbound k hk

theorem applyRelPropOp_node_fields (m : MutableGraphStore) (rk : Nat) (op : PropOp) :
    (applyRelPropOp m rk op).nodes = m.nodes ∧
    (applyRelPropOp m rk op).nodes_by_label = m.nodes_by_label ∧
    (applyRelPropOp m rk op).next_node_key = m.next_node_key := by
  unfold applyRelPropOp
  cases hrel : dlookup m.relationships rk <;> exact ⟨rfl, rfl, rfl⟩

theorem applyRelPropOp_labelState (m : MutableGraphStore) (rk : Nat) (op : PropOp)
    (h : LabelState m) : LabelState (applyRelPropOp m rk op) := by
  obtain ⟨f1, f2, f3⟩ := applyRelPropOp_node_fields m rk op
  exact labelState_of_fields m _ f1 f2 f3 h

theorem applyExtOp_labelState (m : MutableGraphStore) (op : ExtOp) (h : LabelState m) :
    LabelState (applyExtOp m op) := by
  cases op with
  | batch op2 => exact applyOp_labelState m op2 h
  | labelEdit nk op2 => exact applyLabelOp_labelState m nk op2 h
  | nodePropEdit nk op2 => exact applyNodePropOp_labelState m nk op2 h
  | relPropEdit rk op2 => exact applyRelPropOp_labelState m rk op2 h

theorem applyExtOps_labelState (ops : List ExtOp) (m : MutableGraphStore)
    (h : LabelState m) : LabelState (applyExtOps m ops) := by
  induction ops generalizing m with
  | nil => exact h
  | cons op t ih =>
    show LabelState (List.foldl applyExtOp m (op :: t))
    simp only [List.foldl_cons]
    exact ih _ (applyExtOp_labelState m op h)

theorem c4Store_labelState : LabelState c4Store := by
  refine ⟨?_, by simp [c4Store, dkeys], ?_⟩
  · intro L n
    show n ∈ (dlookup [("X", ({0} : Finset Nat))] L).getD ∅ ↔
      ∃ e, dlookup [((0 : Nat), (⟨{"X"}, []⟩ : NodeEntry))] n = some e ∧ L ∈ e.labels
    unfold dlookup
    by_cases hL : ("X" : String) = L
    · rw [if_pos hL]
      by_cases hn : (0 : Nat) = n
      · rw [if_pos hn]
        subst hL
        subst hn
        simp
      · rw [if_neg hn]
        simp only [Option.getD_some]
        constructor
        · intro hmem
          exact absurd (Finset.mem_singleton.mp hmem).symm hn
        · rintro ⟨e, he, -⟩
          exact absurd he (by simp [dlookup])
    · rw [if_neg hL]
      constructor
      · intro hmem
        simp [dlookup] at hmem
      · rintro ⟨e, he, hLe⟩
        by_cases hn : (0 : Nat) = n
        · rw [if_pos hn] at he
          have he2 : e = ⟨{"X"}, []⟩ := (Option.some.inj he).symm
          subst he2
          exact absurd (Finset.mem_singleton.mp hLe) (fun c => hL c.symm)
        · rw [if_neg hn] at he
          simp [dlookup] at he
  · intro k hk
    simp [c4Store, dkeys] at hk
    simp [c4Store, hk]

end LabelStateLemmas2

/-! ## Claim C4 -/

/-- C4 counterexample: removing the label `"X"` from the live node `0`
through its `ReactiveSet` leaves the emptied bucket in place — the
`on_remove` callback only calls `discard` on the bucket and never deletes
it — so `node_labels()` still reports `"X"` although no node carries it. -/
theorem c4_empty_bucket_lingers :
    "X" ∈ (applyLabelOp c4Store 0 (.removeLb "X")).toStore.node_labels_all ∧
    ∀ p ∈ (applyLabelOp c4Store 0 (.removeLb "X")).nodes, "X" ∉ p.2.labels := by
  have hd : (rsRemoveEl ({"X"} : Finset String) "X").getD ⟨{"X"}, ∅, ∅⟩ =
      ⟨∅, ∅, {"X"}⟩ := by
    simp [rsRemoveEl, Finset.erase_singleton]
  have hred : applyLabelOp c4Store 0 (.removeLb "X") =
      ⟨[(0, ⟨∅, []⟩)], [], [("X", (∅ : Finset Nat))], [], [], 1, 0⟩ := by
    show ({ c4Store with
      nodes := dinsert c4Store.nodes 0
        ⟨((rsRemoveEl ({"X"} : Finset String) "X").getD ⟨{"X"}, ∅, ∅⟩).post, []⟩,
      nodes_by_label :=
        ((((rsRemoveEl ({"X"} : Finset String) "X").getD
            ⟨{"X"}, ∅, ∅⟩).removed.sort (· ≤ ·)).foldl
          (fun dd lb => ddiscardKeep dd lb 0)
          (((((rsRemoveEl ({"X"} : Finset String) "X").getD
              ⟨{"X"}, ∅, ∅⟩).added).sort (· ≤ ·)).foldl
            (fun dd lb => dsetAdd dd lb 0) c4Store.nodes_by_label)) } :
        MutableGraphStore) = _
    rw [hd]
    simp only [Finset.sort_empty, Finset.sort_singleton, List.foldl_cons,
      List.foldl_nil]
    decide
  rw [hred]
  exact ⟨by decide, by decide⟩

/-- C4 (amended): every mutation of a `MutableGraphStore` — the four batch
operations, every edit of a live node's label set through its `ReactiveSet`
and every edit of a live entry's properties through its `PropertyDict` —
preserves membership-exactness of the label index (a node id
sits in a label's bucket exactly when that node currently carries the
label), duplicate-freeness of the node map and the key bound; however, a
bucket emptied by a live label removal is NOT removed from the index, so
`node_labels()` may report labels carried by no node. -/
theorem c4_label_index_membership (m : MutableGraphStore) (h : LabelState m)
    (ops : List ExtOp) : LabelState (applyExtOps m ops) :=
  applyExtOps_labelState ops m h

/-- Witness for C4 (amended): a live label removal, a live property edit and
a batch node addition on the one-node store. -/
theorem c4_label_index_membership_witness :
    LabelState c4Store ∧
    LabelState (applyExtOps c4Store
      [.labelEdit 0 (.removeLb "X"),
       .nodePropEdit 0 (.setItem "name" (.atom (.str "a"))),
       .batch (.addNodes [({"Y"}, [])])]) :=
  ⟨c4Store_labelState, c4_label_index_membership c4Store c4Store_labelState _⟩

/-! ## Lemmas: snapshots and order independence (claims C7, C8) -/

section SnapshotLemmas

theorem foldl_snapshotWorldStep_snd (w : MutableGraphStore × GraphStore)
    (ops : List ExtOp) : (ops.foldl snapshotWorldStep w).2 = w.2 := by
  induction ops generalizing w with
  | nil => rfl
  | cons op t ih =>
    show (List.foldl snapshotWorldStep (snapshotWorldStep w op) t).2 = w.2
    exact ih (snapshotWorldStep w op)

theorem dkeys_map_value {κ β γ : Type} (l : List (κ × β)) (g : β → γ) :
    dkeys (l.map (fun p => (p.1, g p.2))) = dkeys l := by
  induction l with
  | nil => rfl
  | cons p t ih =>
    show p.1 :: dkeys (t.map (fun p => (p.1, g p.2))) = p.1 :: dkeys t
    rw [ih]

theorem dictEqB_of_pointwise {κ β : Type} [DecidableEq κ] [DecidableEq β]
    (l1 l2 : List (κ × β)) (h : ∀ k, dlookup l1 k = dlookup l2 k) :
    dictEqB l1 l2 = true := by
  unfold dictEqB
  rw [List.all_eq_true]
  intro k _
  simp [h k]

theorem foldl_xor_key_perm {β : Type} (h : Nat → Nat) (l1 l2 : List (Nat × β))
    (hp : l1.Perm l2) (init : Nat) :
    l1.foldl (fun v p => v ^^^ h p.1) init =
      l2.foldl (fun v p => v ^^^ h p.1) init := by
  haveI : RightCommutative (fun (v : Nat) (p : Nat × β) => v ^^^ h p.1) :=
    ⟨fun b a1 a2 => by rw [Nat.xor_assoc, Nat.xor_assoc, Nat.xor_comm (h a1.1)]⟩
  exact hp.foldl_eq init

end SnapshotLemmas

/-! ## Claim C7 -/

/-- C7: the frozen snapshot `FrozenGraphStore(m)` agrees with `m` at
construction time on `node_count()`, `relationship_count()`, `node_labels()`
and `relationship_types()`, and running any sequence of subsequent mutations
(batch operations, live label edits or live property edits of node and
relationship entries) on the mutable store leaves the
already-taken snapshot unchanged: mutation acts on the mutable component of
the world only, since a frozen store exposes no mutating method and its
constructor copies every collection out of the source. -/
theorem c7_frozen_snapshot (m : MutableGraphStore) (ops : List ExtOp) :
    (ops.foldl snapshotWorldStep (takeSnapshot m)).2 = freeze m ∧
    (freeze m).node_count = m.toStore.node_count ∧
    (freeze m).relationship_count = m.toStore.relationship_count ∧
    (freeze m).node_labels_all = m.toStore.node_labels_all ∧
    (freeze m).relationship_types = m.toStore.relationship_types := by
  refine ⟨foldl_snapshotWorldStep_snd _ _, ?_, ?_, rfl, rfl⟩
  · show (m.nodes.map (fun p => (p.1, freezeNodeEntry p.2))).length = m.nodes.length
    exact List.length_map _ _
  · show (m.relationships.map (fun p => (p.1, freezeRelationshipEntry p.2))).length =
      m.relationships.length
    exact List.length_map _ _

/-! ## Claim C8 -/

/-- C8: two frozen stores built from the same collections of node and
relationship entries assembled in different orders (the primary maps are
permutations of each other, with duplicate-free keys) compare equal —
`__eq__` passes the `isinstance` gate for two frozen stores and compares the
primary maps as key-to-value mappings — and have identical hashes, since
`__hash__` combines the per-key hashes with XOR, an order-independent
combinator. -/
theorem c8_frozen_order_independent (h : Nat → Nat) (m1 m2 : MutableGraphStore)
    (hnn : (dkeys m1.nodes).Nodup) (hnr : (dkeys m1.relationships).Nodup)
    (hpn : m1.nodes.Perm m2.nodes)
    (hpr : m1.relationships.Perm m2.relationships) :
    storeEq .frozen .frozen (freeze m1) (freeze m2) = true ∧
    storeHash h (freeze m1) = storeHash h (freeze m2) := by
  have e1 : (freeze m1).nodes = m1.nodes.map (fun p => (p.1, freezeNodeEntry p.2)) := rfl
  have e2 : (freeze m2).nodes = m2.nodes.map (fun p => (p.1, freezeNodeEntry p.2)) := rfl
  have e3 : (freeze m1).relationships =
      m1.relationships.map (fun p => (p.1, freezeRelationshipEntry p.2)) := rfl
  have e4 : (freeze m2).relationships =
      m2.relationships.map (fun p => (p.1, freezeRelationshipEntry p.2)) := rfl
  constructor
  · show (dictEqB (freeze m1).nodes (freeze m2).nodes &&
      dictEqB (freeze m1).relationships (freeze m2).relationships) = true
    rw [Bool.and_eq_true]
    refine ⟨?_, ?_⟩
    · apply dictEqB_of_pointwise
      intro k
      rw [e1, e2]
      apply perm_dlookup
      · exact hpn.map _
      · rw [dkeys_map_value]
        exact hnn
    · apply dictEqB_of_pointwise
      intro k
      rw [e3, e4]
      apply perm_dlookup
      · exact hpr.map _
      · rw [dkeys_map_value]
        exact hnr
  · show (freeze m1).relationships.foldl (fun v p => v ^^^ h p.1)
      ((freeze m1).nodes.foldl (fun v p => v ^^^ h p.1) 0) =
      (freeze m2).relationships.foldl (fun v p => v ^^^ h p.1)
        ((freeze m2).nodes.foldl (fun v p => v ^^^ h p.1) 0)
    rw [e1, e2, e3, e4, List.foldl_map, List.foldl_map, List.foldl_map,
      List.foldl_map]
    show m1.relationships.foldl (fun v p => v ^^^ h p.1)
        (m1.nodes.foldl (fun v p => v ^^^ h p.1) 0) =
      m2.relationships.foldl (fun v p => v ^^^ h p.1)
        (m2.nodes.foldl (fun v p => v ^^^ h p.1) 0)
    rw [foldl_xor_key_perm h m1.nodes m2.nodes hpn 0]
    exact foldl_xor_key_perm h _ _ hpr _

/-- Witness for C8: `c8StoreA` and `c8StoreB` hold the same two node entries
in opposite orders and the same relationship entry. -/
theorem c8_frozen_order_independent_witness :
    (dkeys c8StoreA.nodes).Nodup ∧ (dkeys c8StoreA.relationships).Nodup ∧
    c8StoreA.nodes.Perm c8StoreB.nodes ∧
    c8StoreA.relationships.Perm c8StoreB.relationships ∧
    storeEq .frozen .frozen (freeze c8StoreA) (freeze c8StoreB) = true ∧
    storeHash (fun n => n) (freeze c8StoreA) = storeHash (fun n => n) (freeze c8StoreB) := by
  have hpn : c8StoreA.nodes.Perm c8StoreB.nodes := List.Perm.swap _ _ _
  have hpr : c8StoreA.relationships.Perm c8StoreB.relationships := List.Perm.refl _
  obtain ⟨ha, hb⟩ := c8_frozen_order_independent (fun n => n) c8StoreA c8StoreB
    (by decide) (by decide) hpn hpr
  exact ⟨by decide, by decide, hpn, hpr, ha, hb⟩
